import Mathlib

/-!
Verification of the Subconscious agent pipeline
(`backend/app/agents/subconscious/`): similarity search, context
formatting, entity-name canonicalization, embeddings batching, semantic
text splitting, and the analyze node's degradation behavior.

Conventions of the shallow embedding:
* Python floats are modelled as `ℚ` (exact arithmetic; floating-point
  rounding is out of scope).
* `datetime` values are modelled as integer day counts; `timedelta(days=d)`
  subtracts `d`.
* `numpy.argsort` (ascending) is modelled as a *stable* ascending argsort,
  i.e. indices ordered by `(value, index)` lexicographically.
* `sklearn.cosine_similarity` is kept abstract: the searcher is
  parameterized by a similarity function `sim : List ℚ → List ℚ → ℚ`.
* Python truthiness is made explicit (`None` and `""` and `0` are falsy).
* Exceptions are modelled with `Except String`.
-/

namespace Subconscious

/-- Chunk type literals of `text_processor._detect_chunk_type` and
`schemas.Chunk.chunk_type`. -/
inductive PyChunkType
  | paragraph | sentence | code | heading
  deriving DecidableEq, Repr, Inhabited

/-- `Chunk` from `schemas.py`: a semantic chunk of a message.  Fields not
needed by any claim (`valid_at`, `invalid_at`, `embedding_model`,
`embedding_created_at` are kept only where a claim mentions mutation). -/
structure Chunk where
  id : String := ""
  content : List Char := []
  position : Nat := 0
  char_start : Nat := 0
  char_end : Nat := 0
  chunk_type : PyChunkType := .paragraph
  created_at : ℤ := 0
  embedding : Option (List ℚ) := none
  embedding_model : String := "text-embedding-3-small"
  embedding_created_at : Option ℤ := none
  message_id : Option String := none
  deriving DecidableEq, Repr, Inhabited

/-- `SimilarChunk` from `schemas.py`: a chunk paired with its cosine
similarity score. -/
structure SimilarChunk where
  chunk : Chunk
  similarity : ℚ
  deriving DecidableEq, Repr, Inhabited

/-! ## `ContextFormatter._calculate_continuity` (context_formatter.py) -/

/-- The fixed positional weights `[1.0, 0.8, 0.6, 0.4, 0.2]` from
`_calculate_continuity`. -/
def continuityWeights : List ℚ := [1, 4/5, 3/5, 2/5, 1/5]

/-- The comprehension
`sum(sc.similarity * weights[min(i, len(weights) - 1)] for i, sc in enumerate(...))`
from `_calculate_continuity`, with the running index `i` made explicit. -/
def continuityWeightedSum (i : Nat) : List SimilarChunk → ℚ
  | [] => 0
  | x :: xs =>
      x.similarity *
          continuityWeights.getD (min i (continuityWeights.length - 1)) 0 +
        continuityWeightedSum (i + 1) xs

/-- `ContextFormatter._calculate_continuity`: weighted average of the
similarities of the first five similar chunks (in input order), with
weight `weights[min(i, len(weights) - 1)]` for position `i`; `0.0` for an
empty list, and `0.0` if the used weight mass is not positive. -/
def calculateContinuity (similar_chunks : List SimilarChunk) : ℚ :=
  if similar_chunks = [] then 0
  else
    let weighted_sum := continuityWeightedSum 0 (similar_chunks.take 5)
    let weight_sum := (continuityWeights.take (min similar_chunks.length 5)).sum
    if 0 < weight_sum then weighted_sum / weight_sum else 0

/-- The spec's positional weight function: `w 0 = 1.0`, `w 1 = 0.8`,
`w 2 = 0.6`, `w 3 = 0.4`, `w 4 = 0.2` (and `0` past the end). -/
def specWeight : Nat → ℚ
  | 0 => 1
  | 1 => 4/5
  | 2 => 3/5
  | 3 => 2/5
  | 4 => 1/5
  | _ => 0

end Subconscious

namespace Subconscious

set_option maxHeartbeats 1000000

/-- **C7.** `_calculate_continuity` equals the spec's weighted average
`Σ(w i · sim i) / Σ(w i)` over the first `min(len, 5)` entries in input
order, is `0.0` on the empty list, and lies in `[0, 1]` whenever every
similarity does. -/
theorem continuity_matches_spec (sc : List SimilarChunk) :
    (sc = [] → calculateContinuity sc = 0) ∧
    (sc ≠ [] →
      calculateContinuity sc =
        (∑ i ∈ Finset.range (min sc.length 5),
            specWeight i * (sc.getD i default).similarity) /
          (∑ i ∈ Finset.range (min sc.length 5), specWeight i)) ∧
    ((∀ x ∈ sc, 0 ≤ x.similarity ∧ x.similarity ≤ 1) →
      0 ≤ calculateContinuity sc ∧ calculateContinuity sc ≤ 1) := by
  have bnd : ∀ x c : ℚ, 0 < c → 0 ≤ x → x ≤ c → 0 ≤ x / c ∧ x / c ≤ 1 :=
    fun x c hc h0 h1 => ⟨div_nonneg h0 hc.le, (div_le_one hc).2 h1⟩
  rcases sc with _ | ⟨a, _ | ⟨b, _ | ⟨c, _ | ⟨d, _ | ⟨e, rest⟩⟩⟩⟩⟩
  · exact ⟨fun _ => by simp [calculateContinuity], fun h => absurd rfl h,
      fun _ => by simp [calculateContinuity]⟩
  · have e : calculateContinuity [a] = a.similarity * 1 / 1 := by
      rw [calculateContinuity, if_neg (by simp)]
      norm_num [continuityWeightedSum, continuityWeights]
    refine ⟨fun h => by simp at h, fun _ => ?_, fun h => ?_⟩
    · rw [e]
      norm_num [specWeight, Finset.sum_range_succ]
    · obtain ⟨ha0, ha1⟩ := h a (by simp)
      rw [e]
      exact bnd _ _ (by norm_num) (by linarith) (by linarith)
  · have e : calculateContinuity [a, b] =
        (a.similarity * 1 + b.similarity * (4 / 5)) / (9 / 5) := by
      rw [calculateContinuity, if_neg (by simp)]
      norm_num [continuityWeightedSum, continuityWeights]
      try ring
    refine ⟨fun h => by simp at h, fun _ => ?_, fun h => ?_⟩
    · rw [e]
      norm_num [specWeight, Finset.sum_range_succ]
      try ring
    · obtain ⟨ha0, ha1⟩ := h a (by simp)
      obtain ⟨hb0, hb1⟩ := h b (by simp)
      rw [e]
      exact bnd _ _ (by norm_num) (by linarith) (by linarith)
  · have e : calculateContinuity [a, b, c] =
        (a.similarity * 1 + b.similarity * (4 / 5) + c.similarity * (3 / 5)) /
          (12 / 5) := by
      rw [calculateContinuity, if_neg (by simp)]
      norm_num [continuityWeightedSum, continuityWeights]
      try ring
    refine ⟨fun h => by simp at h, fun _ => ?_, fun h => ?_⟩
    · rw [e]
      norm_num [specWeight, Finset.sum_range_succ]
      try ring
    · obtain ⟨ha0, ha1⟩ := h a (by simp)
      obtain ⟨hb0, hb1⟩ := h b (by simp)
      obtain ⟨hc0, hc1⟩ := h c (by simp)
      rw [e]
      exact bnd _ _ (by norm_num) (by linarith) (by linarith)
  · have e : calculateContinuity [a, b, c, d] =
        (a.similarity * 1 + b.similarity * (4 / 5) + c.similarity * (3 / 5) +
            d.similarity * (2 / 5)) / (14 / 5) := by
      rw [calculateContinuity, if_neg (by simp)]
      norm_num [continuityWeightedSum, continuityWeights]
      try ring
    refine ⟨fun h => by simp at h, fun _ => ?_, fun h => ?_⟩
    · rw [e]
      norm_num [specWeight, Finset.sum_range_succ]
      try ring
    · obtain ⟨ha0, ha1⟩ := h a (by simp)
      obtain ⟨hb0, hb1⟩ := h b (by simp)
      obtain ⟨hc0, hc1⟩ := h c (by simp)
      obtain ⟨hd0, hd1⟩ := h d (by simp)
      rw [e]
      exact bnd _ _ (by norm_num) (by linarith) (by linarith)
  · have hlen : (a :: b :: c :: d :: e :: rest).length = rest.length + 5 := by
      simp
    have hmin : min (a :: b :: c :: d :: e :: rest).length 5 = 5 := by
      rw [hlen]; omega
    have e1 : calculateContinuity (a :: b :: c :: d :: e :: rest) =
        (a.similarity * 1 + b.similarity * (4 / 5) + c.similarity * (3 / 5) +
            d.similarity * (2 / 5) + e.similarity * (1 / 5)) / 3 := by
      rw [calculateContinuity, if_neg (by simp), hmin]
      norm_num [continuityWeightedSum, continuityWeights]
      try ring
    refine ⟨fun h => by simp at h, fun _ => ?_, fun h => ?_⟩
    · rw [e1, hmin]
      norm_num [specWeight, Finset.sum_range_succ]
      try ring
    · obtain ⟨ha0, ha1⟩ := h a (by simp)
      obtain ⟨hb0, hb1⟩ := h b (by simp)
      obtain ⟨hc0, hc1⟩ := h c (by simp)
      obtain ⟨hd0, hd1⟩ := h d (by simp)
      obtain ⟨he0, he1⟩ := h e (by simp)
      rw [e1]
      exact bnd _ _ (by norm_num) (by linarith) (by linarith)

end Subconscious

namespace Subconscious

/-! ## `SimilaritySearcher.find_similar_chunks` (similarity_searcher.py)

`numpy.argsort` on the filtered similarity scores is modelled as a stable
ascending argsort: index `i` precedes `j` when `(s i, i) <lex (s j, j)`.
The fractional cosine scores themselves are abstracted into a parameter
`sim` (sklearn computes them numerically); every claim about
`find_similar_chunks` is invariant in `sim`. -/

/-- Stable ascending argsort order on positions of the score list `s`:
`i` comes before `j` when its score is smaller, or the scores are equal
and `i` is the earlier position. -/
def IdxLt (s : List ℚ) (i j : Nat) : Prop :=
  s.getD i 0 < s.getD j 0 ∨ (s.getD i 0 = s.getD j 0 ∧ i < j)

instance (s : List ℚ) (i j : Nat) : Decidable (IdxLt s i j) := by
  unfold IdxLt; exact inferInstance

/-- Insert a position into an ascending argsort list. -/
def argInsert (s : List ℚ) (i : Nat) : List Nat → List Nat
  | [] => [i]
  | j :: r => if IdxLt s i j then i :: j :: r else j :: argInsert s i r

/-- Stable ascending argsort of the score list `s` (the model of
`similarities.argsort()`). -/
def argsortAsc (s : List ℚ) : List Nat :=
  (List.range s.length).foldr (argInsert s) []

/-- The index selection `argsort()[-top_k:][::-1]` (when more than `top_k`
scores survive) or `argsort()[::-1]` (otherwise) from
`find_similar_chunks`.  Python's `a[-top_k:]` is `a[0:]` — the **whole**
array — when `top_k = 0` (`-0 == 0`), so the first branch drops nothing
there; for `0 < top_k` it keeps the last `top_k` entries. -/
def selectionIndices (ksims : List ℚ) (top_k : Nat) : List Nat :=
  let a := argsortAsc ksims
  if top_k < ksims.length then
    (if top_k = 0 then a else a.drop (a.length - top_k)).reverse
  else a.reverse

/-- The time-window filter of `find_similar_chunks`: when
`self.time_window_days` is truthy (non-`None`, non-zero), keep only the
chunks created at or after `now - time_window_days`. -/
def timeFilteredChunks (twd : Option ℤ) (now : ℤ) (cands : List Chunk) :
    List Chunk :=
  match twd with
  | some d => if d ≠ 0 then cands.filter (fun c => decide (now - d ≤ c.created_at))
      else cands
  | none => cands

/-- `chunks_with_embeddings`: drop candidates without an embedding. -/
def chunksWithEmbeddings (twd : Option ℤ) (now : ℤ) (cands : List Chunk) :
    List Chunk :=
  (timeFilteredChunks twd now cands).filter (fun c => c.embedding.isSome)

/-- The candidate pool after the time-window, embedding and
`exclude_message_id` filters (the latter only when truthy, i.e. a
non-empty string). -/
def searchPool (twd : Option ℤ) (now : ℤ) (excl : Option String)
    (cands : List Chunk) : List Chunk :=
  match excl with
  | some m =>
      if m ≠ "" then
        (chunksWithEmbeddings twd now cands).filter
          (fun c => decide (c.message_id ≠ some m))
      else chunksWithEmbeddings twd now cands
  | none => chunksWithEmbeddings twd now cands

/-- Similarity of the query against one candidate chunk's embedding. -/
def simOf (sim : List ℚ → List ℚ → ℚ) (query : List ℚ) (c : Chunk) : ℚ :=
  sim query (c.embedding.getD [])

/-- `similarities`: the score row for the pool. -/
def poolSims (sim : List ℚ → List ℚ → ℚ) (query : List ℚ)
    (pool : List Chunk) : List ℚ :=
  pool.map (simOf sim query)

/-- `filtered_indices = np.where(similarities >= threshold)[0]` —
positions passing the threshold, in ascending (original) order. -/
def keptIndices (threshold : ℚ) (sims : List ℚ) : List Nat :=
  (List.range sims.length).filter (fun i => decide (threshold ≤ sims.getD i 0))

/-- `filtered_similarities` — the scores at the kept positions. -/
def keptSims (threshold : ℚ) (sims : List ℚ) : List ℚ :=
  (keptIndices threshold sims).map (fun i => sims.getD i 0)

/-- `filtered_indices` for a full searcher call: positions of the pool
passing the threshold. -/
def keptOf (threshold : ℚ) (twd : Option ℤ) (now : ℤ)
    (sim : List ℚ → List ℚ → ℚ) (query : List ℚ) (excl : Option String)
    (cands : List Chunk) : List Nat :=
  keptIndices threshold (poolSims sim query (searchPool twd now excl cands))

/-- `filtered_similarities` for a full searcher call. -/
def ksimsOf (threshold : ℚ) (twd : Option ℤ) (now : ℤ)
    (sim : List ℚ → List ℚ → ℚ) (query : List ℚ) (excl : Option String)
    (cands : List Chunk) : List ℚ :=
  keptSims threshold (poolSims sim query (searchPool twd now excl cands))

/-- `SimilaritySearcher.find_similar_chunks`, with the searcher's
`threshold`/`time_window_days` passed explicitly, `datetime.now()` as
`now`, and cosine similarity as `sim`. -/
def findSimilarChunks (threshold : ℚ) (twd : Option ℤ) (now : ℤ)
    (sim : List ℚ → List ℚ → ℚ) (query : List ℚ) (cands : List Chunk)
    (top_k : Nat) (excl : Option String) : List SimilarChunk :=
  if cands = [] then []
  else if chunksWithEmbeddings twd now cands = [] then []
  else if keptOf threshold twd now sim query excl cands = [] then []
  else
    (selectionIndices (ksimsOf threshold twd now sim query excl cands) top_k).map
      (fun j =>
        ⟨(searchPool twd now excl cands).getD
            ((keptOf threshold twd now sim query excl cands).getD j 0) default,
          (ksimsOf threshold twd now sim query excl cands).getD j 0⟩)

end Subconscious

namespace Subconscious

theorem IdxLt_trans {s : List ℚ} {i j k : Nat} (h1 : IdxLt s i j)
    (h2 : IdxLt s j k) : IdxLt s i k := by
  rcases h1 with h1 | ⟨e1, l1⟩ <;> rcases h2 with h2 | ⟨e2, l2⟩
  · exact Or.inl (lt_trans h1 h2)
  · exact Or.inl (e2 ▸ h1)
  · exact Or.inl (e1 ▸ h2)
  · exact Or.inr ⟨e1.trans e2, lt_trans l1 l2⟩

theorem IdxLt_total {s : List ℚ} {i j : Nat} (h : i ≠ j) :
    IdxLt s i j ∨ IdxLt s j i := by
  rcases lt_trichotomy (s.getD i 0) (s.getD j 0) with hl | he | hg
  · exact Or.inl (Or.inl hl)
  · rcases Nat.lt_or_ge i j with hij | hij
    · exact Or.inl (Or.inr ⟨he, hij⟩)
    · exact Or.inr (Or.inr ⟨he.symm, Nat.lt_of_le_of_ne hij (Ne.symm h)⟩)
  · exact Or.inr (Or.inl hg)

theorem mem_argInsert {s : List ℚ} {i k : Nat} {l : List Nat} :
    k ∈ argInsert s i l ↔ k = i ∨ k ∈ l := by
  induction l with
  | nil => simp [argInsert]
  | cons j r ih =>
    unfold argInsert
    by_cases h : IdxLt s i j
    · simp [h]
    · simp only [if_neg h, List.mem_cons, ih]
      tauto

theorem argInsert_perm (s : List ℚ) (i : Nat) (l : List Nat) :
    List.Perm (argInsert s i l) (i :: l) := by
  induction l with
  | nil => rfl
  | cons j r ih =>
    unfold argInsert
    by_cases h : IdxLt s i j
    · simp [h]
    · simp only [if_neg h]
      exact (List.Perm.cons j ih).trans (List.Perm.swap i j r)

theorem argInsert_sorted {s : List ℚ} {i : Nat} {l : List Nat}
    (hl : List.Pairwise (IdxLt s) l) (hne : ∀ j ∈ l, j ≠ i) :
    List.Pairwise (IdxLt s) (argInsert s i l) := by
  induction l with
  | nil => simp [argInsert]
  | cons j r ih =>
    rcases List.pairwise_cons.1 hl with ⟨hj, hr⟩
    unfold argInsert
    by_cases h : IdxLt s i j
    · simp only [if_pos h]
      refine List.pairwise_cons.2 ⟨?_, hl⟩
      intro k hk
      rcases List.mem_cons.1 hk with rfl | hk
      · exact h
      · exact IdxLt_trans h (hj k hk)
    · simp only [if_neg h]
      have hij : i ≠ j := fun e => hne j (List.mem_cons_self j r) e.symm
      have hji : IdxLt s j i := by
        rcases IdxLt_total hij with h' | h'
        · exact absurd h' h
        · exact h'
      refine List.pairwise_cons.2
        ⟨?_, ih hr (fun k hk => hne k (List.mem_cons_of_mem _ hk))⟩
      intro k hk
      rcases mem_argInsert.1 hk with rfl | hk
      · exact hji
      · exact hj k hk

theorem foldr_argInsert_perm (s : List ℚ) (l : List Nat) :
    List.Perm (l.foldr (argInsert s) []) l := by
  induction l with
  | nil => rfl
  | cons a r ih =>
    exact (argInsert_perm s a (r.foldr (argInsert s) [])).trans (ih.cons a)

theorem foldr_argInsert_sorted (s : List ℚ) (l : List Nat) (h : l.Nodup) :
    List.Pairwise (IdxLt s) (l.foldr (argInsert s) []) := by
  induction l with
  | nil => simp
  | cons a r ih =>
    rcases List.nodup_cons.1 h with ⟨ha, hr⟩
    refine argInsert_sorted (ih hr) ?_
    intro j hj he
    exact ha (he ▸ (foldr_argInsert_perm s r).mem_iff.1 hj)

theorem argsortAsc_perm (s : List ℚ) :
    List.Perm (argsortAsc s) (List.range s.length) :=
  foldr_argInsert_perm s _

theorem argsortAsc_sorted (s : List ℚ) :
    List.Pairwise (IdxLt s) (argsortAsc s) :=
  foldr_argInsert_sorted s _ (List.nodup_range _)

theorem argsortAsc_length (s : List ℚ) : (argsortAsc s).length = s.length :=
  (argsortAsc_perm s).length_eq.trans (List.length_range _)

theorem mem_argsortAsc {s : List ℚ} {j : Nat} :
    j ∈ argsortAsc s ↔ j < s.length := by
  rw [(argsortAsc_perm s).mem_iff, List.mem_range]

theorem mem_selectionIndices {ksims : List ℚ} {top_k j : Nat}
    (hj : j ∈ selectionIndices ksims top_k) : j < ksims.length := by
  unfold selectionIndices at hj
  by_cases h : top_k < ksims.length
  · rw [if_pos h, List.mem_reverse] at hj
    by_cases h0 : top_k = 0
    · rw [if_pos h0] at hj
      exact mem_argsortAsc.1 hj
    · rw [if_neg h0] at hj
      exact mem_argsortAsc.1 (List.mem_of_mem_drop hj)
  · rw [if_neg h, List.mem_reverse] at hj
    exact mem_argsortAsc.1 hj

theorem selectionIndices_length {top_k : Nat} (hpos : 0 < top_k)
    (ksims : List ℚ) :
    (selectionIndices ksims top_k).length = min ksims.length top_k := by
  unfold selectionIndices
  by_cases h : top_k < ksims.length
  · rw [if_pos h, if_neg (by omega), List.length_reverse, List.length_drop,
      argsortAsc_length]
    omega
  · rw [if_neg h, List.length_reverse, argsortAsc_length]
    omega

theorem selectionIndices_length_zero (ksims : List ℚ) :
    (selectionIndices ksims 0).length = ksims.length := by
  unfold selectionIndices
  by_cases h : 0 < ksims.length
  · rw [if_pos h, if_pos rfl, List.length_reverse, argsortAsc_length]
  · rw [if_neg h, List.length_reverse, argsortAsc_length]

theorem selectionIndices_pairwise (ksims : List ℚ) (top_k : Nat) :
    List.Pairwise (fun j j' => IdxLt ksims j' j)
      (selectionIndices ksims top_k) := by
  unfold selectionIndices
  by_cases h : top_k < ksims.length
  · rw [if_pos h, List.pairwise_reverse]
    by_cases h0 : top_k = 0
    · rw [if_pos h0]
      exact argsortAsc_sorted ksims
    · rw [if_neg h0]
      exact (argsortAsc_sorted ksims).sublist (List.drop_sublist _ _)
  · rw [if_neg h, List.pairwise_reverse]
    exact argsortAsc_sorted ksims

theorem selectionIndices_complete {ksims : List ℚ} {top_k : Nat}
    (h : ¬ top_k < ksims.length) {j : Nat} (hj : j < ksims.length) :
    j ∈ selectionIndices ksims top_k := by
  unfold selectionIndices
  rw [if_neg h, List.mem_reverse]
  exact mem_argsortAsc.2 hj

theorem selectionIndices_dominates {ksims : List ℚ} {top_k : Nat}
    (h : top_k < ksims.length) {i : Nat} (hi : i < ksims.length)
    (hnot : i ∉ selectionIndices ksims top_k) {j : Nat}
    (hj : j ∈ selectionIndices ksims top_k) : IdxLt ksims i j := by
  unfold selectionIndices at hnot hj
  rw [if_pos h, List.mem_reverse] at hj hnot
  by_cases h0 : top_k = 0
  · rw [if_pos h0] at hnot
    exact absurd (mem_argsortAsc.2 hi) hnot
  rw [if_neg h0] at hj hnot
  set a := argsortAsc ksims with ha
  set m := a.length - top_k with hm
  have hsplit : a = a.take m ++ a.drop m := (List.take_append_drop m a).symm
  have hits : i ∈ a.take m := by
    have : i ∈ a := mem_argsortAsc.2 hi
    rw [hsplit, List.mem_append] at this
    rcases this with h' | h'
    · exact h'
    · exact absurd h' hnot
  have hpw := argsortAsc_sorted ksims
  rw [← ha, hsplit, List.pairwise_append] at hpw
  exact hpw.2.2 i hits j hj

end Subconscious

namespace Subconscious

theorem keptIndices_spec {threshold : ℚ} {sims : List ℚ} {i : Nat}
    (hi : i ∈ keptIndices threshold sims) :
    threshold ≤ sims.getD i 0 ∧ i < sims.length := by
  unfold keptIndices at hi
  simp only [List.mem_filter, List.mem_range, decide_eq_true_eq] at hi
  exact ⟨hi.2, hi.1⟩

theorem mem_keptIndices {threshold : ℚ} {sims : List ℚ} {i : Nat}
    (hi : i < sims.length) (ht : threshold ≤ sims.getD i 0) :
    i ∈ keptIndices threshold sims := by
  unfold keptIndices
  simp only [List.mem_filter, List.mem_range, decide_eq_true_eq]
  exact ⟨hi, ht⟩

theorem keptIndices_sorted (threshold : ℚ) (sims : List ℚ) :
    List.Pairwise (· < ·) (keptIndices threshold sims) :=
  (List.pairwise_lt_range _).filter _

theorem keptSims_length (threshold : ℚ) (sims : List ℚ) :
    (keptSims threshold sims).length = (keptIndices threshold sims).length :=
  List.length_map _ _

theorem keptSims_getD {threshold : ℚ} {sims : List ℚ} {j : Nat}
    (hj : j < (keptIndices threshold sims).length) :
    (keptSims threshold sims).getD j 0 =
      sims.getD ((keptIndices threshold sims).getD j 0) 0 := by
  unfold keptSims
  rw [List.getD_eq_getElem _ _ (by simpa using hj),
    List.getD_eq_getElem _ _ hj, List.getElem_map]

theorem poolSims_getD {sim : List ℚ → List ℚ → ℚ} {query : List ℚ}
    {pool : List Chunk} {i : Nat} (hi : i < pool.length) :
    (poolSims sim query pool).getD i 0 = simOf sim query (pool.getD i default) := by
  unfold poolSims
  rw [List.getD_eq_getElem _ _ (by simpa using hi),
    List.getD_eq_getElem _ _ hi, List.getElem_map]

theorem poolSims_length (sim : List ℚ → List ℚ → ℚ) (query : List ℚ)
    (pool : List Chunk) : (poolSims sim query pool).length = pool.length :=
  List.length_map _ _

theorem searchPool_nil {twd : Option ℤ} {now : ℤ} {excl : Option String}
    {cands : List Chunk} (h : chunksWithEmbeddings twd now cands = []) :
    searchPool twd now excl cands = [] := by
  unfold searchPool
  rcases excl with _ | m
  · exact h
  · by_cases hm : m ≠ "" <;> simp [hm, h]

theorem chunksWithEmbeddings_nil (twd : Option ℤ) (now : ℤ) :
    chunksWithEmbeddings twd now [] = [] := by
  unfold chunksWithEmbeddings timeFilteredChunks
  rcases twd with _ | d
  · rfl
  · by_cases hd : d ≠ 0 <;> simp [hd]

/-- When the filtered pool is empty, no position passes the threshold. -/
theorem keptOf_of_pool_nil {threshold : ℚ} {twd : Option ℤ} {now : ℤ}
    {sim : List ℚ → List ℚ → ℚ} {query : List ℚ} {excl : Option String}
    {cands : List Chunk} (h : searchPool twd now excl cands = []) :
    keptOf threshold twd now sim query excl cands = [] := by
  unfold keptOf keptIndices poolSims
  rw [h]
  rfl

/-- One above-threshold candidate for the C5 counterexample. -/
def topkCexChunk : Chunk := { id := "T", embedding := some [1] }

/-- **C5, counterexample.**  At `top_k = 0` with one above-threshold
candidate, `argsort()[-0:]` is the whole array (`-0 == 0` in Python), so
`find_similar_chunks` returns every kept candidate: the result has length
`1`, violating the claimed `length ≤ top_k` bound. -/
theorem find_similar_topk_cex :
    (findSimilarChunks 0 none 0 (fun _ e => e.getD 0 0) [] [topkCexChunk] 0
        none).length = 1 ∧
    ¬ ((findSimilarChunks 0 none 0 (fun _ e => e.getD 0 0) [] [topkCexChunk]
        0 none).length ≤ 0) := by
  with_unfolding_all decide

/-- **C5 (amended).**  For every `top_k ≥ 1`, `find_similar_chunks`
returns at most `top_k` results; at `top_k = 0` the `[-0:]` slice keeps
everything, and the result enumerates *all* positions passing the
threshold (one entry per kept position, `0` when nothing survives the
filters); in every case the similarity scores are sorted in descending
(non-increasing) order. -/
theorem find_similar_topk_amended (threshold : ℚ) (twd : Option ℤ) (now : ℤ)
    (sim : List ℚ → List ℚ → ℚ) (query : List ℚ) (cands : List Chunk)
    (top_k : Nat) (excl : Option String) :
    (0 < top_k →
      (findSimilarChunks threshold twd now sim query cands top_k
          excl).length ≤ top_k) ∧
    (top_k = 0 →
      (findSimilarChunks threshold twd now sim query cands top_k
          excl).length =
        (keptOf threshold twd now sim query excl cands).length) ∧
    List.Pairwise (fun x y : SimilarChunk => y.similarity ≤ x.similarity)
      (findSimilarChunks threshold twd now sim query cands top_k excl) := by
  refine ⟨?_, ?_, ?_⟩
  · intro hpos
    unfold findSimilarChunks
    split_ifs with h1 h2 h3
    · simp
    · simp
    · simp
    · rw [List.length_map, selectionIndices_length hpos]
      exact min_le_right _ _
  · intro h0
    subst h0
    unfold findSimilarChunks
    split_ifs with h1 h2 h3
    · subst h1
      rw [keptOf_of_pool_nil (searchPool_nil (chunksWithEmbeddings_nil _ _))]
      rfl
    · rw [keptOf_of_pool_nil (searchPool_nil h2)]
      rfl
    · rw [h3]
      rfl
    · rw [List.length_map, selectionIndices_length_zero]
      exact keptSims_length _ _
  · unfold findSimilarChunks
    split_ifs with h1 h2 h3
    · simp
    · simp
    · simp
    · rw [List.pairwise_map]
      refine (selectionIndices_pairwise _ _).imp ?_
      intro j j' hlt
      rcases hlt with hlt | ⟨heq, _⟩
      · exact le_of_lt hlt
      · exact le_of_eq heq

/-- **C4 (counterexample data).** Two candidates, both above threshold. -/
def cexChunkA : Chunk := { id := "A", embedding := some [1] }

/-- Second counterexample candidate (lower but above-threshold score). -/
def cexChunkB : Chunk := { id := "B", embedding := some [0] }

/-- **C4, counterexample.** With `threshold = 0`, `top_k = 1` and two
candidates scoring `1` and `0`, the lower-scoring candidate has an
embedding and is excluded from the result, yet its similarity is *not*
below the threshold: exclusion by the top-k cutoff contradicts the claim
that every excluded embedded candidate has `similarity < threshold`. -/
theorem find_similar_threshold_cex :
    findSimilarChunks 0 none 0 (fun _ e => e.getD 0 0) [1]
        [cexChunkA, cexChunkB] 1 none = [⟨cexChunkA, 1⟩] ∧
    cexChunkB.embedding.isSome = true ∧
    (¬ ∃ sc ∈ findSimilarChunks 0 none 0 (fun _ e => e.getD 0 0) [1]
        [cexChunkA, cexChunkB] 1 none, sc.chunk = cexChunkB) ∧
    ¬ simOf (fun _ e => e.getD 0 0) [1] cexChunkB < 0 := by
  with_unfolding_all decide

end Subconscious

namespace Subconscious

theorem getD_mem_of_lt {α : Type} {l : List α} {j : Nat} (h : j < l.length)
    (d : α) : l.getD j d ∈ l := by
  rw [List.getD_eq_getElem _ _ h]
  exact List.getElem_mem h

/-- **C4, amended.** Every returned chunk has `similarity ≥ threshold`
(first conjunct, unconditional); and *provided the kept set does not
exceed `top_k`*, a pool candidate (i.e. one that also survives the
time-window, embedding and `exclude_message_id` filters) appears in the
result exactly when its similarity is at least the threshold — so the
claim's "excluded ⇒ `similarity < threshold`" direction holds only up to
the top-k cutoff and the non-threshold filters. -/
theorem find_similar_threshold_amended (threshold : ℚ) (twd : Option ℤ)
    (now : ℤ) (sim : List ℚ → List ℚ → ℚ) (query : List ℚ)
    (cands : List Chunk) (top_k : Nat) (excl : Option String) :
    (∀ sc ∈ findSimilarChunks threshold twd now sim query cands top_k excl,
        threshold ≤ sc.similarity) ∧
    ((keptOf threshold twd now sim query excl cands).length ≤ top_k →
      ∀ c ∈ searchPool twd now excl cands,
        ((∃ sc ∈ findSimilarChunks threshold twd now sim query cands top_k excl,
            sc.chunk = c) ↔ threshold ≤ simOf sim query c)) := by
  have hKS : (ksimsOf threshold twd now sim query excl cands).length =
      (keptOf threshold twd now sim query excl cands).length :=
    keptSims_length _ _
  have hsim : ∀ j < (keptOf threshold twd now sim query excl cands).length,
      (ksimsOf threshold twd now sim query excl cands).getD j 0 =
        (poolSims sim query (searchPool twd now excl cands)).getD
          ((keptOf threshold twd now sim query excl cands).getD j 0) 0 :=
    fun j hj => keptSims_getD hj
  constructor
  · intro sc hsc
    unfold findSimilarChunks at hsc
    split_ifs at hsc with h1 h2 h3
    · simp at hsc
    · simp at hsc
    · simp at hsc
    · rw [List.mem_map] at hsc
      obtain ⟨j, hj, rfl⟩ := hsc
      have hjlen : j < (keptOf threshold twd now sim query excl cands).length := by
        rw [← hKS]; exact mem_selectionIndices hj
      have hmem := getD_mem_of_lt hjlen 0
      have hth := (keptIndices_spec hmem).1
      show threshold ≤ (ksimsOf threshold twd now sim query excl cands).getD j 0
      rw [hsim j hjlen]
      exact hth
  · intro hcap c hc
    have hpool : c ∈ searchPool twd now excl cands := hc
    obtain ⟨i, hi, hci⟩ := List.mem_iff_getElem.1 hpool
    have hSlen : (poolSims sim query (searchPool twd now excl cands)).length =
        (searchPool twd now excl cands).length := poolSims_length _ _ _
    have hSi : (poolSims sim query (searchPool twd now excl cands)).getD i 0 =
        simOf sim query c := by
      rw [poolSims_getD hi, List.getD_eq_getElem _ _ hi, hci]
    constructor
    · rintro ⟨sc, hsc, rfl⟩
      unfold findSimilarChunks at hsc
      split_ifs at hsc with h1 h2 h3
      · simp at hsc
      · simp at hsc
      · simp at hsc
      · rw [List.mem_map] at hsc
        obtain ⟨j, hj, rfl⟩ := hsc
        have hjlen : j < (keptOf threshold twd now sim query excl cands).length := by
          rw [← hKS]; exact mem_selectionIndices hj
        have hmem := getD_mem_of_lt hjlen 0
        have hspec := keptIndices_spec hmem
        have hilen : (keptOf threshold twd now sim query excl cands).getD j 0 <
            (searchPool twd now excl cands).length := by
          rw [← hSlen]; exact hspec.2
        simp only
        rw [poolSims_getD hilen] at hspec
        exact hspec.1
    · intro hth
      have hiS : i < (poolSims sim query (searchPool twd now excl cands)).length := by
        rw [hSlen]; exact hi
      have hiK : i ∈ keptOf threshold twd now sim query excl cands :=
        mem_keptIndices hiS (by rw [hSi]; exact hth)
      obtain ⟨j, hjlen, hji⟩ :=
        List.mem_iff_getElem.1 hiK
      have h1 : cands ≠ [] := by
        intro h
        subst h
        rw [searchPool_nil (chunksWithEmbeddings_nil twd now)] at hpool
        simp at hpool
      have h2 : chunksWithEmbeddings twd now cands ≠ [] := by
        intro h
        rw [searchPool_nil h] at hpool
        simp at hpool
      have h3 : keptOf threshold twd now sim query excl cands ≠ [] :=
        List.ne_nil_of_mem hiK
      have hjsel : j ∈ selectionIndices
          (ksimsOf threshold twd now sim query excl cands) top_k := by
        refine selectionIndices_complete ?_ ?_
        · rw [hKS]; omega
        · rw [hKS]; exact hjlen
      refine ⟨⟨(searchPool twd now excl cands).getD
          ((keptOf threshold twd now sim query excl cands).getD j 0) default,
          (ksimsOf threshold twd now sim query excl cands).getD j 0⟩, ?_, ?_⟩
      · unfold findSimilarChunks
        rw [if_neg h1, if_neg h2, if_neg h3, List.mem_map]
        exact ⟨j, hjsel, rfl⟩
      · simp only
        rw [List.getD_eq_getElem _ _ hjlen, hji, List.getD_eq_getElem _ _ hi, hci]

end Subconscious

namespace Subconscious

/-- First tie-counterexample candidate (earlier in input order). -/
def tieChunkA : Chunk := { id := "A", embedding := some [1] }

/-- Second tie-counterexample candidate (later in input order). -/
def tieChunkB : Chunk := { id := "B", embedding := some [1] }

/-- **C2, counterexample.** Two candidates with *equal* scores: the code's
`argsort()[::-1]` emits the *later* candidate first, so the tie is broken
by reverse input order, contradicting "ties broken by the candidates'
original input order" (which would demand `[A, B]`). -/
theorem find_similar_tiebreak_cex :
    findSimilarChunks 0 none 0 (fun _ e => e.getD 0 0) [1]
        [tieChunkA, tieChunkB] 10 none =
      [⟨tieChunkB, 1⟩, ⟨tieChunkA, 1⟩] ∧ tieChunkA ≠ tieChunkB := by
  with_unfolding_all decide

/-- **C2, amended.** The selection and ordering are deterministic under the
stable-argsort model, but ties are broken by *reverse* original candidate
order: (i) kept positions are listed in original pool order; (ii) in the
output, a chunk precedes another iff its score is strictly higher or the
scores are equal and its kept position is *later*; (iii) when the kept set
exceeds `top_k`, every unselected kept position is strictly
`(score, position)`-below every selected one — so among equal scores the
later candidates are the ones selected; (iv) the result is exactly the map
over these selection positions. -/
theorem find_similar_tiebreak_amended (threshold : ℚ) (twd : Option ℤ)
    (now : ℤ) (sim : List ℚ → List ℚ → ℚ) (query : List ℚ)
    (cands : List Chunk) (top_k : Nat) (excl : Option String) :
    List.Pairwise (· < ·) (keptOf threshold twd now sim query excl cands) ∧
    List.Pairwise
      (fun j j' => IdxLt (ksimsOf threshold twd now sim query excl cands) j' j)
      (selectionIndices (ksimsOf threshold twd now sim query excl cands) top_k) ∧
    (top_k < (ksimsOf threshold twd now sim query excl cands).length →
      ∀ i < (ksimsOf threshold twd now sim query excl cands).length,
        i ∉ selectionIndices (ksimsOf threshold twd now sim query excl cands)
            top_k →
        ∀ j ∈ selectionIndices (ksimsOf threshold twd now sim query excl cands)
            top_k,
          IdxLt (ksimsOf threshold twd now sim query excl cands) i j) ∧
    (cands ≠ [] → chunksWithEmbeddings twd now cands ≠ [] →
      keptOf threshold twd now sim query excl cands ≠ [] →
      findSimilarChunks threshold twd now sim query cands top_k excl =
        (selectionIndices (ksimsOf threshold twd now sim query excl cands)
            top_k).map
          (fun j =>
            ⟨(searchPool twd now excl cands).getD
                ((keptOf threshold twd now sim query excl cands).getD j 0)
                default,
              (ksimsOf threshold twd now sim query excl cands).getD j 0⟩)) := by
  refine ⟨keptIndices_sorted _ _, selectionIndices_pairwise _ _, ?_, ?_⟩
  · intro hcap i hi hnot j hj
    exact selectionIndices_dominates hcap hi hnot hj
  · intro h1 h2 h3
    unfold findSimilarChunks
    rw [if_neg h1, if_neg h2, if_neg h3]

end Subconscious

namespace Subconscious

/-! ## `SimilaritySearcher.find_similar_for_multiple` (similarity_searcher.py)

The Python dict `all_similar : chunk_id -> best SimilarChunk` is modelled
as an insertion-ordered association list: overwriting a key keeps its
position (CPython dict semantics), a new key is appended. -/

/-- One merge step of
`if chunk_id not in all_similar or sc.similarity > all_similar[chunk_id].similarity`:
replace the entry in place when the new score is strictly higher, append
when the key is new. -/
def upsertBest : List (String × SimilarChunk) → SimilarChunk →
    List (String × SimilarChunk)
  | [], sc => [(sc.chunk.id, sc)]
  | (k, v) :: rest, sc =>
      if k = sc.chunk.id then
        if v.similarity < sc.similarity then (k, sc) :: rest
        else (k, v) :: rest
      else (k, v) :: upsertBest rest sc

/-- Dict lookup (first matching key). -/
def lookupA : List (String × SimilarChunk) → String → Option SimilarChunk
  | [], _ => none
  | (k, v) :: rest, i => if k = i then some v else lookupA rest i

/-- The merge loop of `find_similar_for_multiple`: fold the per-query
results (skipping query chunks without an embedding) into the dict. -/
def mergeSimilar (step : Chunk → List SimilarChunk) (chunks : List Chunk) :
    List (String × SimilarChunk) :=
  chunks.foldl
    (fun acc qc =>
      if qc.embedding.isSome then (step qc).foldl upsertBest acc else acc)
    []

/-- Stable insertion into a descending-by-similarity list (the model of
Python's stable `sorted(..., key=sim, reverse=True)`). -/
def insDescBySim (x : SimilarChunk) : List SimilarChunk → List SimilarChunk
  | [] => [x]
  | y :: r => if y.similarity < x.similarity then x :: y :: r
      else y :: insDescBySim x r

/-- Stable descending sort by similarity. -/
def sortDescBySim (l : List SimilarChunk) : List SimilarChunk :=
  l.foldr insDescBySim []

/-- The per-query search `find_similar_chunks(query_embedding=chunk.embedding, ...)`
performed for each query chunk of `find_similar_for_multiple`. -/
def multiStep (threshold : ℚ) (twd : Option ℤ) (now : ℤ)
    (sim : List ℚ → List ℚ → ℚ) (cands : List Chunk) (top_k_per : Nat)
    (excl : Option String) : Chunk → List SimilarChunk :=
  fun qc =>
    findSimilarChunks threshold twd now sim (qc.embedding.getD []) cands
      top_k_per excl

/-- The merged dict `all_similar` built by `find_similar_for_multiple`. -/
def multiMerged (threshold : ℚ) (twd : Option ℤ) (now : ℤ)
    (sim : List ℚ → List ℚ → ℚ) (chunks cands : List Chunk)
    (top_k_per : Nat) (excl : Option String) :
    List (String × SimilarChunk) :=
  mergeSimilar (multiStep threshold twd now sim cands top_k_per excl) chunks

/-- `SimilaritySearcher.find_similar_for_multiple`. -/
def findSimilarForMultiple (threshold : ℚ) (twd : Option ℤ) (now : ℤ)
    (sim : List ℚ → List ℚ → ℚ) (chunks cands : List Chunk)
    (top_k_per : Nat) (max_total : Nat) (excl : Option String) :
    List SimilarChunk :=
  if chunks = [] then []
  else
    (sortDescBySim
        ((multiMerged threshold twd now sim chunks cands top_k_per
            excl).map Prod.snd)).take
      max_total

/-- The concatenated per-query match lists (queries without an embedding
skipped), in processing order. -/
def queryMatches (step : Chunk → List SimilarChunk) (chunks : List Chunk) :
    List SimilarChunk :=
  (chunks.filter (fun c => c.embedding.isSome)).flatMap step

/-- All matches of a given candidate chunk id across the queries. -/
def occurrencesOf (step : Chunk → List SimilarChunk) (chunks : List Chunk)
    (i : String) : List SimilarChunk :=
  (queryMatches step chunks).filter (fun sc => decide (sc.chunk.id = i))

end Subconscious

namespace Subconscious

theorem lookupA_upsertBest (m : List (String × SimilarChunk))
    (sc : SimilarChunk) (i : String) :
    lookupA (upsertBest m sc) i =
      if i = sc.chunk.id then
        match lookupA m i with
        | none => some sc
        | some v => some (if v.similarity < sc.similarity then sc else v)
      else lookupA m i := by
  induction m with
  | nil =>
    by_cases h : i = sc.chunk.id
    · simp [upsertBest, lookupA, h]
    · have h' : ¬ sc.chunk.id = i := fun e => h e.symm
      simp [upsertBest, lookupA, h, h']
  | cons p rest ih =>
    obtain ⟨k, v⟩ := p
    by_cases hk : k = sc.chunk.id
    · by_cases hik : i = k
      · have hik' : k = i := hik.symm
        have hisc : i = sc.chunk.id := hik.trans hk
        by_cases hv : v.similarity < sc.similarity
        · simp [upsertBest, lookupA, hk, hv, hik', hisc]
        · simp [upsertBest, lookupA, hk, hv, hik', hisc]
      · have hik' : ¬ k = i := fun e => hik e.symm
        have hisc : ¬ i = sc.chunk.id := fun e => hik (e.trans hk.symm)
        have hisc' : ¬ sc.chunk.id = i := fun e => hisc e.symm
        by_cases hv : v.similarity < sc.similarity
        · simp [upsertBest, lookupA, hk, hv, hik', hisc, hisc']
        · simp [upsertBest, lookupA, hk, hv, hik', hisc, hisc']
    · by_cases hik : i = k
      · have hik' : k = i := hik.symm
        have hisc : ¬ i = sc.chunk.id := fun e => hk (hik ▸ e)
        simp [upsertBest, lookupA, hk, hik', hisc]
      · have hik' : ¬ k = i := fun e => hik e.symm
        simp [upsertBest, lookupA, hk, hik', ih]
theorem foldl_upsert_lookup (L : List SimilarChunk)
    (acc : List (String × SimilarChunk)) (i : String) :
    (lookupA (L.foldl upsertBest acc) i = none →
        lookupA acc i = none ∧
          L.filter (fun sc => decide (sc.chunk.id = i)) = []) ∧
    (∀ v, lookupA (L.foldl upsertBest acc) i = some v →
        (v ∈ L.filter (fun sc => decide (sc.chunk.id = i)) ∨
            lookupA acc i = some v) ∧
        (∀ o ∈ L.filter (fun sc => decide (sc.chunk.id = i)),
            o.similarity ≤ v.similarity) ∧
        (∀ w, lookupA acc i = some w → w.similarity ≤ v.similarity)) := by
  induction L generalizing acc with
  | nil =>
    refine ⟨fun h => ⟨h, rfl⟩, fun v hv => ⟨Or.inr hv, by simp, ?_⟩⟩
    intro w hw
    simp only [List.foldl_nil] at hv
    rw [hv] at hw
    cases hw
    exact le_refl _
  | cons sc L ih =>
    have hfold : (sc :: L).foldl upsertBest acc =
        L.foldl upsertBest (upsertBest acc sc) := rfl
    by_cases hi : sc.chunk.id = i
    · have hfil : (sc :: L).filter (fun x => decide (x.chunk.id = i)) =
          sc :: L.filter (fun x => decide (x.chunk.id = i)) := by
        simp [List.filter_cons, hi]
      have hlook := lookupA_upsertBest acc sc i
      rw [if_pos hi.symm] at hlook
      constructor
      · intro h
        rw [hfold] at h
        have h1 := (ih (upsertBest acc sc)).1 h
        exfalso
        rw [h1.1] at hlook
        rcases hacc : lookupA acc i with _ | w <;> rw [hacc] at hlook
        · cases hlook
        · cases hlook
      · intro v hv
        rw [hfold] at hv
        obtain ⟨hmem, hub, hbase⟩ := (ih (upsertBest acc sc)).2 v hv
        rcases hacc : lookupA acc i with _ | w
        · rw [hacc] at hlook
          have hlook' : lookupA (upsertBest acc sc) i = some sc := hlook
          have hsc_le : sc.similarity ≤ v.similarity := hbase sc hlook'
          refine ⟨?_, ?_, ?_⟩
          · rcases hmem with hmem | hmem
            · exact Or.inl (hfil ▸ List.mem_cons_of_mem _ hmem)
            · rw [hlook'] at hmem
              cases hmem
              exact Or.inl (hfil ▸ List.mem_cons_self _ _)
          · intro o ho
            rw [hfil] at ho
            rcases List.mem_cons.1 ho with rfl | ho
            · exact hsc_le
            · exact hub o ho
          · intro w' hw'
            cases hw'
        · rw [hacc] at hlook
          have hlook' : lookupA (upsertBest acc sc) i =
              some (if w.similarity < sc.similarity then sc else w) := hlook
          by_cases hwsc : w.similarity < sc.similarity
          · rw [if_pos hwsc] at hlook'
            have hsc_le : sc.similarity ≤ v.similarity := hbase sc hlook'
            refine ⟨?_, ?_, ?_⟩
            · rcases hmem with hmem | hmem
              · exact Or.inl (hfil ▸ List.mem_cons_of_mem _ hmem)
              · rw [hlook'] at hmem
                cases hmem
                exact Or.inl (hfil ▸ List.mem_cons_self _ _)
            · intro o ho
              rw [hfil] at ho
              rcases List.mem_cons.1 ho with rfl | ho
              · exact hsc_le
              · exact hub o ho
            · intro w' hw'
              cases hw'
              exact le_trans (le_of_lt hwsc) hsc_le
          · rw [if_neg hwsc] at hlook'
            have hw_le : w.similarity ≤ v.similarity := hbase w hlook'
            refine ⟨?_, ?_, ?_⟩
            · rcases hmem with hmem | hmem
              · exact Or.inl (hfil ▸ List.mem_cons_of_mem _ hmem)
              · rw [hlook'] at hmem
                cases hmem
                exact Or.inr rfl
            · intro o ho
              rw [hfil] at ho
              rcases List.mem_cons.1 ho with rfl | ho
              · exact le_trans (not_lt.1 hwsc) hw_le
              · exact hub o ho
            · intro w' hw'
              cases hw'
              exact hw_le
    · have hfil : (sc :: L).filter (fun x => decide (x.chunk.id = i)) =
          L.filter (fun x => decide (x.chunk.id = i)) := by
        simp [List.filter_cons, hi]
      have hlook := lookupA_upsertBest acc sc i
      rw [if_neg (fun e => hi e.symm)] at hlook
      constructor
      · intro h
        rw [hfold] at h
        have h1 := (ih (upsertBest acc sc)).1 h
        rw [hlook] at h1
        exact ⟨h1.1, hfil ▸ h1.2⟩
      · intro v hv
        rw [hfold] at hv
        obtain ⟨hmem, hub, hbase⟩ := (ih (upsertBest acc sc)).2 v hv
        rw [hlook] at hmem hbase
        exact ⟨hfil ▸ hmem, fun o ho => hub o (hfil ▸ ho), hbase⟩

end Subconscious

namespace Subconscious

theorem mergeSimilar_eq_foldl (step : Chunk → List SimilarChunk)
    (chunks : List Chunk) :
    mergeSimilar step chunks = (queryMatches step chunks).foldl upsertBest [] := by
  suffices h : ∀ acc, chunks.foldl
      (fun acc qc =>
        if qc.embedding.isSome then (step qc).foldl upsertBest acc else acc)
      acc = (queryMatches step chunks).foldl upsertBest acc from h []
  induction chunks with
  | nil => intro acc; rfl
  | cons c cs ih =>
    intro acc
    by_cases hc : c.embedding.isSome
    · have hq : queryMatches step (c :: cs) = step c ++ queryMatches step cs := by
        simp [queryMatches, List.filter_cons, hc]
      rw [List.foldl_cons, if_pos hc, hq, List.foldl_append]
      exact ih _
    · have hq : queryMatches step (c :: cs) = queryMatches step cs := by
        simp [queryMatches, List.filter_cons, hc]
      rw [List.foldl_cons, if_neg hc, hq]
      exact ih acc

theorem mem_upsertBest {m : List (String × SimilarChunk)} {sc : SimilarChunk}
    {p : String × SimilarChunk} (hp : p ∈ upsertBest m sc) :
    p ∈ m ∨ p = (sc.chunk.id, sc) := by
  induction m with
  | nil =>
    simp only [upsertBest, List.mem_singleton] at hp
    exact Or.inr hp
  | cons q rest ih =>
    obtain ⟨k, v⟩ := q
    simp only [upsertBest] at hp
    by_cases hk : k = sc.chunk.id
    · by_cases hv : v.similarity < sc.similarity
      · rw [if_pos hk, if_pos hv] at hp
        rcases List.mem_cons.1 hp with rfl | hp
        · exact Or.inr (by rw [hk])
        · exact Or.inl (List.mem_cons_of_mem _ hp)
      · rw [if_pos hk, if_neg hv] at hp
        exact Or.inl hp
    · rw [if_neg hk] at hp
      rcases List.mem_cons.1 hp with rfl | hp
      · exact Or.inl (List.mem_cons_self _ _)
      · rcases ih hp with h | h
        · exact Or.inl (List.mem_cons_of_mem _ h)
        · exact Or.inr h

theorem upsertBest_keys_nodup {m : List (String × SimilarChunk)}
    {sc : SimilarChunk} (h : (m.map Prod.fst).Nodup) :
    ((upsertBest m sc).map Prod.fst).Nodup := by
  induction m with
  | nil => simp [upsertBest]
  | cons q rest ih =>
    obtain ⟨k, v⟩ := q
    simp only [List.map_cons, List.nodup_cons] at h
    obtain ⟨hk1, hk2⟩ := h
    simp only [upsertBest]
    by_cases hk : k = sc.chunk.id
    · by_cases hv : v.similarity < sc.similarity
      · rw [if_pos hk, if_pos hv]
        simp only [List.map_cons, List.nodup_cons]
        exact ⟨hk1, hk2⟩
      · rw [if_pos hk, if_neg hv]
        simp only [List.map_cons, List.nodup_cons]
        exact ⟨hk1, hk2⟩
    · rw [if_neg hk]
      simp only [List.map_cons, List.nodup_cons]
      refine ⟨?_, ih hk2⟩
      intro hmem
      rw [List.mem_map] at hmem
      obtain ⟨p, hp, hpk⟩ := hmem
      rcases mem_upsertBest hp with h | h
      · exact hk1 (List.mem_map.2 ⟨p, h, hpk⟩)
      · exact hk (by rw [← hpk, h])

theorem upsertBest_consistent {m : List (String × SimilarChunk)}
    {sc : SimilarChunk} (h : ∀ p ∈ m, p.2.chunk.id = p.1) :
    ∀ p ∈ upsertBest m sc, p.2.chunk.id = p.1 := by
  intro p hp
  rcases mem_upsertBest hp with hm | hm
  · exact h p hm
  · rw [hm]

theorem foldl_upsert_keys_nodup (L : List SimilarChunk)
    (acc : List (String × SimilarChunk)) (h : (acc.map Prod.fst).Nodup) :
    ((L.foldl upsertBest acc).map Prod.fst).Nodup := by
  induction L generalizing acc with
  | nil => exact h
  | cons sc L ih => exact ih _ (upsertBest_keys_nodup h)

theorem foldl_upsert_consistent (L : List SimilarChunk)
    (acc : List (String × SimilarChunk)) (h : ∀ p ∈ acc, p.2.chunk.id = p.1) :
    ∀ p ∈ L.foldl upsertBest acc, p.2.chunk.id = p.1 := by
  induction L generalizing acc with
  | nil => exact h
  | cons sc L ih => exact ih _ (upsertBest_consistent h)

theorem insDescBySim_perm (x : SimilarChunk) (l : List SimilarChunk) :
    List.Perm (insDescBySim x l) (x :: l) := by
  induction l with
  | nil => rfl
  | cons y r ih =>
    unfold insDescBySim
    by_cases h : y.similarity < x.similarity
    · simp [h]
    · simp only [if_neg h]
      exact (List.Perm.cons y ih).trans (List.Perm.swap x y r)

theorem sortDescBySim_perm (l : List SimilarChunk) :
    List.Perm (sortDescBySim l) l := by
  induction l with
  | nil => rfl
  | cons x r ih => exact (insDescBySim_perm x (sortDescBySim r)).trans (ih.cons x)

theorem insDescBySim_sorted {x : SimilarChunk} {l : List SimilarChunk}
    (h : List.Pairwise (fun a b : SimilarChunk => b.similarity ≤ a.similarity) l) :
    List.Pairwise (fun a b : SimilarChunk => b.similarity ≤ a.similarity)
      (insDescBySim x l) := by
  induction l with
  | nil => simp [insDescBySim]
  | cons y r ih =>
    rcases List.pairwise_cons.1 h with ⟨hy, hr⟩
    unfold insDescBySim
    by_cases hxy : y.similarity < x.similarity
    · simp only [if_pos hxy]
      refine List.pairwise_cons.2 ⟨?_, h⟩
      intro k hk
      rcases List.mem_cons.1 hk with rfl | hk
      · exact le_of_lt hxy
      · exact le_trans (hy k hk) (le_of_lt hxy)
    · simp only [if_neg hxy]
      refine List.pairwise_cons.2 ⟨?_, ih hr⟩
      intro k hk
      rcases (insDescBySim_perm x r).mem_iff.1 hk with hk'
      rcases List.mem_cons.1 hk' with rfl | hk'
      · exact not_lt.1 hxy
      · exact hy k hk'

theorem sortDescBySim_sorted (l : List SimilarChunk) :
    List.Pairwise (fun a b : SimilarChunk => b.similarity ≤ a.similarity)
      (sortDescBySim l) := by
  induction l with
  | nil => simp [sortDescBySim]
  | cons x r ih => exact insDescBySim_sorted ih

end Subconscious

namespace Subconscious

/-- **C6.** `find_similar_for_multiple`: the merged dict holds, per candidate
chunk id, exactly one entry, whose score is the maximum observed across all
per-query searches (the entry is one of the actual matches and dominates
all of them); every id that matches at least one query is present; and the
final output has pairwise-distinct ids, is sorted descending by score,
has length at most `max_total`, and consists of merged-dict values. -/
theorem find_similar_multi_dedup_law (threshold : ℚ) (twd : Option ℤ)
    (now : ℤ) (sim : List ℚ → List ℚ → ℚ) (chunks cands : List Chunk)
    (top_k_per max_total : Nat) (excl : Option String) :
    (∀ i v,
        lookupA (multiMerged threshold twd now sim chunks cands top_k_per excl)
            i = some v →
        v ∈ occurrencesOf (multiStep threshold twd now sim cands top_k_per excl)
            chunks i ∧
        ∀ o ∈ occurrencesOf (multiStep threshold twd now sim cands top_k_per
            excl) chunks i, o.similarity ≤ v.similarity) ∧
    (∀ i,
        occurrencesOf (multiStep threshold twd now sim cands top_k_per excl)
            chunks i ≠ [] →
        ∃ v, lookupA (multiMerged threshold twd now sim chunks cands top_k_per
            excl) i = some v) ∧
    ((findSimilarForMultiple threshold twd now sim chunks cands top_k_per
        max_total excl).map (fun sc => sc.chunk.id)).Nodup ∧
    List.Pairwise (fun a b : SimilarChunk => b.similarity ≤ a.similarity)
      (findSimilarForMultiple threshold twd now sim chunks cands top_k_per
        max_total excl) ∧
    (findSimilarForMultiple threshold twd now sim chunks cands top_k_per
        max_total excl).length ≤ max_total ∧
    (∀ sc ∈ findSimilarForMultiple threshold twd now sim chunks cands
        top_k_per max_total excl,
      sc ∈ (multiMerged threshold twd now sim chunks cands top_k_per
          excl).map Prod.snd) := by
  have hM : multiMerged threshold twd now sim chunks cands top_k_per excl =
      (queryMatches (multiStep threshold twd now sim cands top_k_per excl)
          chunks).foldl upsertBest [] :=
    mergeSimilar_eq_foldl _ _
  refine ⟨?_, ?_, ?_, ?_, ?_, ?_⟩
  · intro i v hv
    rw [hM] at hv
    obtain ⟨hmem, hub, _⟩ := (foldl_upsert_lookup _ [] i).2 v hv
    rcases hmem with hmem | hmem
    · exact ⟨hmem, hub⟩
    · cases hmem
  · intro i hne
    rcases h : lookupA (multiMerged threshold twd now sim chunks cands
        top_k_per excl) i with _ | v
    · exfalso
      rw [hM] at h
      exact hne ((foldl_upsert_lookup _ [] i).1 h).2
    · exact ⟨v, rfl⟩
  · by_cases hc : chunks = []
    · simp [findSimilarForMultiple, hc]
    · have hcons : ∀ p ∈ multiMerged threshold twd now sim chunks cands
          top_k_per excl, p.2.chunk.id = p.1 := by
        rw [hM]
        exact foldl_upsert_consistent _ [] (by simp)
      have hkeys : ((multiMerged threshold twd now sim chunks cands top_k_per
          excl).map Prod.fst).Nodup := by
        rw [hM]
        exact foldl_upsert_keys_nodup _ [] (by simp)
      have hids : ((multiMerged threshold twd now sim chunks cands top_k_per
            excl).map Prod.snd).map (fun sc => sc.chunk.id) =
          (multiMerged threshold twd now sim chunks cands top_k_per
            excl).map Prod.fst := by
        rw [List.map_map]
        exact List.map_congr_left (fun p hp => hcons p hp)
      have hvals : (((multiMerged threshold twd now sim chunks cands top_k_per
          excl).map Prod.snd).map (fun sc => sc.chunk.id)).Nodup := by
        rw [hids]; exact hkeys
      have hsortids : ((sortDescBySim ((multiMerged threshold twd now sim
          chunks cands top_k_per excl).map Prod.snd)).map
            (fun sc => sc.chunk.id)).Nodup :=
        ((sortDescBySim_perm _).map _).nodup_iff.2 hvals
      unfold findSimilarForMultiple
      rw [if_neg hc, List.map_take]
      exact hsortids.sublist (List.take_sublist _ _)
  · by_cases hc : chunks = []
    · simp [findSimilarForMultiple, hc]
    · unfold findSimilarForMultiple
      rw [if_neg hc]
      exact (sortDescBySim_sorted _).sublist (List.take_sublist _ _)
  · by_cases hc : chunks = []
    · simp [findSimilarForMultiple, hc]
    · unfold findSimilarForMultiple
      rw [if_neg hc, List.length_take]
      exact min_le_left _ _
  · intro sc hsc
    unfold findSimilarForMultiple at hsc
    by_cases hc : chunks = []
    · rw [if_pos hc] at hsc
      simp at hsc
    · rw [if_neg hc] at hsc
      exact (sortDescBySim_perm _).mem_iff.1 (List.mem_of_mem_take hsc)

end Subconscious

namespace Subconscious

/-! ## `ContextFormatter._get_messages_for_chunks` (context_formatter.py)

The Python code builds `list({sc.chunk.message_id for ...})` — a *set*
comprehension, whose iteration order depends on string hashing and is not
the discovery order.  The embedding therefore takes the set's enumeration
as a parameter `setList`, constrained (in the theorems) only to produce
some permutation of the distinct truthy ids.  The repository call
`get_chunks_for_message` is the parameter `repo`. -/

/-- One similar-messages entry (`{"id", "content", "timestamp"}`). -/
structure MsgEntry where
  id : String
  content : List Char
  timestamp : ℤ
  deriving DecidableEq, Repr, Inhabited

/-- The truthy parent message ids of the similar chunks, in discovery
order and with multiplicity (the set comprehension's generator). -/
def truthyIds (similar_chunks : List SimilarChunk) : List String :=
  similar_chunks.filterMap
    (fun sc =>
      match sc.chunk.message_id with
      | some m => if m ≠ "" then some m else none
      | none => none)

/-- `" ".join(c.content for c in chunks)`. -/
def joinSpace (cs : List (List Char)) : List Char :=
  List.intercalate [' '] cs

/-- `content[:200] + "..." if len(content) > 200 else content`. -/
def truncate200 (s : List Char) : List Char :=
  if 200 < s.length then s.take 200 ++ ['.', '.', '.'] else s

/-- `ContextFormatter._get_messages_for_chunks`:  collect the distinct
truthy parent ids (set order via `setList`), keep the first five, and for
each id with a non-empty chunk list build the entry from the
space-joined, truncated chunk contents and the first chunk's
`created_at`. -/
def getMessagesForChunks (repo : String → List Chunk)
    (setList : List String → List String)
    (similar_chunks : List SimilarChunk) : List MsgEntry :=
  let message_ids := setList (truthyIds similar_chunks)
  if message_ids = [] then []
  else
    (message_ids.take 5).filterMap
      (fun mid =>
        match repo mid with
        | [] => none
        | c :: cs =>
            some ⟨mid, truncate200 (joinSpace ((c :: cs).map Chunk.content)),
              c.created_at⟩)

/-- Counterexample chunk: one similar chunk whose parent message is `"m"`. -/
def msgChunkCex : Chunk := { id := "c0", message_id := some "m" }

/-- Counterexample repository: message `"m"` has one 250-character chunk. -/
def cexRepo : String → List Chunk := fun mid =>
  if mid = "m" then
    [{ id := "c1", content := List.replicate 250 'a', created_at := 5,
       message_id := some "m" }]
  else []

end Subconscious

namespace Subconscious

set_option maxRecDepth 10000

/-- **C3, counterexample.** A single similar chunk whose parent message
joins to 250 characters: the produced displayable content has length
`203` (200 kept characters plus an appended `"..."`), not the claimed
truncation to 200 characters.  With a single distinct id the set's
enumeration order is immaterial. -/
theorem messages_truncation_cex :
    ((getMessagesForChunks cexRepo (fun xs => xs.dedup)
          [⟨msgChunkCex, 1⟩]).map (fun m => m.content.length)) = [203] ∧
    ¬ (∀ m ∈ getMessagesForChunks cexRepo (fun xs => xs.dedup)
          [⟨msgChunkCex, 1⟩],
        m.content = (joinSpace ((cexRepo m.id).map Chunk.content)).take 200) := by
  with_unfolding_all decide

end Subconscious

namespace Subconscious

/-- The entry builder of `_get_messages_for_chunks` for a single id. -/
def msgEntryFor (repo : String → List Chunk) (mid : String) :
    Option MsgEntry :=
  match repo mid with
  | [] => none
  | c :: cs =>
      some ⟨mid, truncate200 (joinSpace ((c :: cs).map Chunk.content)),
        c.created_at⟩

theorem getMessagesForChunks_eq (repo : String → List Chunk)
    (setList : List String → List String)
    (similar_chunks : List SimilarChunk) :
    getMessagesForChunks repo setList similar_chunks =
      ((setList (truthyIds similar_chunks)).take 5).filterMap
        (msgEntryFor repo) := by
  unfold getMessagesForChunks msgEntryFor
  by_cases h : setList (truthyIds similar_chunks) = []
  · simp [h]
  · rw [if_neg h]

theorem filterMap_msgEntryFor_ids (repo : String → List Chunk)
    (l : List String) :
    ((l.filterMap (msgEntryFor repo)).map (fun m => m.id)) =
      l.filter (fun mid => decide (repo mid ≠ [])) := by
  induction l with
  | nil => rfl
  | cons mid l ih =>
    rw [List.filterMap_cons, List.filter_cons]
    rcases hr : repo mid with _ | ⟨c, cs⟩
    · simpa [msgEntryFor, hr] using ih
    · simpa [msgEntryFor, hr] using ih

/-- **C3, amended.** `similar_messages` is built from the *distinct* truthy
parent message ids of the similar chunks — enumerated in the (unspecified)
iteration order of a Python set, not necessarily discovery order — keeping
at most the first five of them; ids are pairwise distinct; messages whose
chunk list is empty are skipped; and each entry's content is the message's
chunks joined by a single space and truncated to 200 characters *with
`"..."` appended* when truncation occurred, its timestamp the first
chunk's `created_at`. -/
theorem messages_for_chunks_amended (repo : String → List Chunk)
    (setList : List String → List String)
    (similar_chunks : List SimilarChunk)
    (hset : List.Perm (setList (truthyIds similar_chunks))
      (truthyIds similar_chunks).dedup) :
    (getMessagesForChunks repo setList similar_chunks).length ≤ 5 ∧
    ((getMessagesForChunks repo setList similar_chunks).map
        (fun m => m.id)).Nodup ∧
    ∀ m ∈ getMessagesForChunks repo setList similar_chunks,
      (∃ sc ∈ similar_chunks, sc.chunk.message_id = some m.id) ∧
      m.id ≠ "" ∧ repo m.id ≠ [] ∧
      m.content = truncate200 (joinSpace ((repo m.id).map Chunk.content)) ∧
      m.timestamp = ((repo m.id).headD default).created_at := by
  rw [getMessagesForChunks_eq]
  refine ⟨?_, ?_, ?_⟩
  · calc (((setList (truthyIds similar_chunks)).take 5).filterMap
        (msgEntryFor repo)).length
        ≤ ((setList (truthyIds similar_chunks)).take 5).length :=
          List.length_filterMap_le _ _
      _ ≤ 5 := by rw [List.length_take]; exact min_le_left _ _
  · rw [filterMap_msgEntryFor_ids]
    have hnd : (setList (truthyIds similar_chunks)).Nodup :=
      hset.nodup_iff.2 (List.nodup_dedup _)
    exact ((hnd.sublist (List.take_sublist _ _)).filter _)
  · intro m hm
    rw [List.mem_filterMap] at hm
    obtain ⟨mid, hmid, hf⟩ := hm
    rcases hr : repo mid with _ | ⟨c, cs⟩
    · rw [msgEntryFor, hr] at hf
      cases hf
    · rw [msgEntryFor, hr] at hf
      cases hf
      have hmem : mid ∈ setList (truthyIds similar_chunks) :=
        List.mem_of_mem_take hmid
      have hded : mid ∈ (truthyIds similar_chunks).dedup := hset.mem_iff.1 hmem
      have htru : mid ∈ truthyIds similar_chunks := List.mem_dedup.1 hded
      rw [truthyIds, List.mem_filterMap] at htru
      obtain ⟨sc, hsc, hsome⟩ := htru
      rcases hmsg : sc.chunk.message_id with _ | msg
      · rw [hmsg] at hsome
        cases hsome
      · rw [hmsg] at hsome
        have hsome' : (if msg ≠ "" then some msg else none) = some mid := hsome
        by_cases hne : msg ≠ ""
        · rw [if_pos hne] at hsome'
          cases hsome'
          refine ⟨⟨sc, hsc, hmsg⟩, hne, ?_, ?_, ?_⟩
          · simp [hr]
          · simp [hr]
          · simp [hr]
        · rw [if_neg hne] at hsome'
          cases hsome' 

end Subconscious

namespace Subconscious

/-! ## `EmbeddingsService` (embeddings_service.py)

The OpenAI call `client.embeddings.create(input=batch, ...)` is the
parameter `api` (one call per batch, returning the batch's embedding rows
or raising).  Texts are `List Char`. -/

/-- The batching `for i in range(0, len(texts), batch_size)` with
`batch = texts[i : i + batch_size]`.  A zero step is a `ValueError` in
Python; the model returns `[]` for `bs = 0` (unreachable: the settings
batch size is positive, and the theorems assume `0 < bs`). -/
def chunksOfBatch (bs : Nat) (xs : List (List Char)) :
    List (List (List Char)) :=
  if xs = [] ∨ bs = 0 then []
  else xs.take bs :: chunksOfBatch bs (xs.drop bs)
termination_by xs.length
decreasing_by
  rename_i h
  push_neg at h
  have hx : xs.length ≠ 0 := fun hl => h.1 (List.eq_nil_of_length_eq_zero hl)
  rw [List.length_drop]
  omega

/-- `EmbeddingsService.generate_batch`: empty input short-circuits to `[]`;
otherwise issue one `api` call per batch, concatenating the returned rows;
a failing batch aborts the whole call with an `EmbeddingError`. -/
def generateBatch (api : List (List Char) → Except String (List (List ℚ)))
    (bs : Nat) (texts : List (List Char)) : Except String (List (List ℚ)) :=
  if texts = [] then .ok []
  else
    (chunksOfBatch bs texts).foldlM
      (fun acc b =>
        match api b with
        | .ok embs => .ok (acc ++ embs)
        | .error e => .error ("Failed to generate embeddings: " ++ e))
      []

/-- `EmbeddingsService.embed_chunks`: collect the chunk texts, call
`generate_batch`, then attach the embeddings in a second loop.  The
in-place mutation is modelled by returning the final chunk list together
with the raised error (if any): when `generate_batch` raises, the
attachment loop has not run and the chunks are returned untouched. -/
def embedChunks (api : List (List Char) → Except String (List (List ℚ)))
    (bs : Nat) (model : String) (now : ℤ) (chunks : List Chunk) :
    List Chunk × Option String :=
  if chunks = [] then (chunks, none)
  else
    match generateBatch api bs (chunks.map Chunk.content) with
    | .error e => (chunks, some e)
    | .ok embs =>
        ((chunks.zip embs).map
            (fun p =>
              { p.1 with
                embedding := some p.2
                embedding_model := model
                embedding_created_at := some now }) ++
          chunks.drop embs.length,
          none)

theorem chunksOfBatch_flatten (bs : Nat) (hbs : 0 < bs)
    (xs : List (List Char)) : (chunksOfBatch bs xs).flatten = xs := by
  have H : ∀ n (xs : List (List Char)), xs.length ≤ n →
      (chunksOfBatch bs xs).flatten = xs := by
    intro n
    induction n with
    | zero =>
      intro xs hx
      have hxe : xs = [] := List.eq_nil_of_length_eq_zero (Nat.le_zero.1 hx)
      subst hxe
      simp [chunksOfBatch]
    | succ n ih =>
      intro xs hx
      by_cases hxe : xs = []
      · subst hxe
        simp [chunksOfBatch]
      · rw [chunksOfBatch, if_neg (by simp [hxe]; omega)]
        rw [List.flatten_cons]
        have hlen : xs.length ≠ 0 :=
          fun h => hxe (List.eq_nil_of_length_eq_zero h)
        have hdrop : (xs.drop bs).length ≤ n := by
          rw [List.length_drop]
          omega
        rw [ih (xs.drop bs) hdrop]
        exact List.take_append_drop _ _
  exact H xs.length xs le_rfl

theorem foldlM_batches_ok_length
    (api : List (List Char) → Except String (List (List ℚ)))
    (hapi : ∀ b embs, api b = .ok embs → embs.length = b.length)
    (batches : List (List (List Char))) :
    ∀ acc embs,
      batches.foldlM
        (fun acc b =>
          match api b with
          | .ok embs => Except.ok (acc ++ embs)
          | .error e =>
              Except.error ("Failed to generate embeddings: " ++ e))
        acc = .ok embs →
      embs.length = acc.length + (batches.map List.length).sum := by
  induction batches with
  | nil =>
    intro acc embs h
    cases h
    simp
  | cons b rest ih =>
    intro acc embs h
    rw [List.foldlM_cons] at h
    rcases hb : api b with e | es
    · rw [hb] at h
      cases h
    · rw [hb] at h
      have h' : rest.foldlM
          (fun acc b =>
            match api b with
            | .ok embs => Except.ok (acc ++ embs)
            | .error e =>
                Except.error ("Failed to generate embeddings: " ++ e))
          (acc ++ es) = .ok embs := h
      have := ih (acc ++ es) embs h'
      rw [List.length_append] at this
      rw [this, hapi b es hb, List.map_cons, List.sum_cons]
      omega

theorem generateBatch_ok_length
    (api : List (List Char) → Except String (List (List ℚ))) (bs : Nat)
    (hbs : 0 < bs)
    (hapi : ∀ b embs, api b = .ok embs → embs.length = b.length)
    (texts : List (List Char)) (embs : List (List ℚ))
    (h : generateBatch api bs texts = .ok embs) :
    embs.length = texts.length := by
  unfold generateBatch at h
  by_cases ht : texts = []
  · rw [if_pos ht] at h
    cases h
    simp [ht]
  · rw [if_neg ht] at h
    have := foldlM_batches_ok_length api hapi (chunksOfBatch bs texts) [] embs h
    rw [this]
    have hj : ((chunksOfBatch bs texts).map List.length).sum =
        (chunksOfBatch bs texts).flatten.length := by
      rw [List.length_flatten]
    rw [hj, chunksOfBatch_flatten bs hbs]
    simp

end Subconscious

namespace Subconscious

/-- **C9.** `embed_chunks` is all-or-nothing: with a positive batch size
and an API returning one embedding row per input, either some batch fails
— then `EmbeddingError` propagates and the chunks are returned exactly as
given (no mutation) — or every batch succeeds and *every* chunk carries
its positional embedding; no final state embeds only some chunks. -/
theorem embed_chunks_all_or_nothing
    (api : List (List Char) → Except String (List (List ℚ))) (bs : Nat)
    (model : String) (now : ℤ) (chunks : List Chunk) (hbs : 0 < bs)
    (hapi : ∀ b embs, api b = .ok embs → embs.length = b.length) :
    (∀ e, (embedChunks api bs model now chunks).2 = some e →
        (embedChunks api bs model now chunks).1 = chunks) ∧
    ((embedChunks api bs model now chunks).2 = none →
      ∃ embs, generateBatch api bs (chunks.map Chunk.content) = .ok embs ∧
        embs.length = chunks.length ∧
        (embedChunks api bs model now chunks).1 =
          (chunks.zip embs).map
            (fun p =>
              { p.1 with
                embedding := some p.2
                embedding_model := model
                embedding_created_at := some now }) ∧
        (embedChunks api bs model now chunks).1.length = chunks.length ∧
        ∀ c ∈ (embedChunks api bs model now chunks).1,
          c.embedding.isSome) := by
  rcases hg : generateBatch api bs (chunks.map Chunk.content) with er | embs
  · have hch : chunks ≠ [] := by
      intro h
      subst h
      rw [generateBatch] at hg
      simp at hg
    have heq : embedChunks api bs model now chunks = (chunks, some er) := by
      unfold embedChunks
      rw [if_neg hch, hg]
    rw [heq]
    refine ⟨fun e _ => rfl, fun h => ?_⟩
    cases h
  · have hlen : embs.length = chunks.length := by
      have := generateBatch_ok_length api bs hbs hapi _ embs hg
      rwa [List.length_map] at this
    have heq : embedChunks api bs model now chunks =
        ((chunks.zip embs).map
            (fun p =>
              { p.1 with
                embedding := some p.2
                embedding_model := model
                embedding_created_at := some now }) ++
          chunks.drop embs.length, none) := by
      unfold embedChunks
      by_cases hch : chunks = []
      · subst hch
        rw [if_pos rfl]
        rw [generateBatch] at hg
        simp at hg
        subst hg
        simp
      · rw [if_neg hch, hg]
    have hdrop : chunks.drop embs.length = [] := by
      rw [hlen]
      exact List.drop_length _
    rw [heq, hdrop, List.append_nil]
    refine ⟨fun e he => ?_, fun _ => ⟨embs, rfl, hlen, rfl, ?_, ?_⟩⟩
    · cases he
    · rw [List.length_map, List.length_zip, hlen, min_self]
    · intro c hc
      rw [List.mem_map] at hc
      obtain ⟨p, _, rfl⟩ := hc
      rfl

end Subconscious

namespace Subconscious

/-! ## `EntityExtractor.normalize_entity_name` (entity_extractor.py)

Strings are `List Char`.  `str.lower`/`str.strip` and the regex character
classes `\s`, `\d` are modelled over ASCII (the repository's entity names
and all regex literals are ASCII).  Each `re.sub(pattern, "", s)` is
transcribed as a left-to-right scan removing every leftmost-greedy match,
exactly as `re.sub` does for these backtracking-free patterns. -/

/-- Python `\s` (ASCII part): space, tab, newline, carriage return,
vertical tab, form feed. -/
def isSpacePy (c : Char) : Bool :=
  c.toNat = 32 || c.toNat = 9 || c.toNat = 10 || c.toNat = 13 ||
    c.toNat = 11 || c.toNat = 12

/-- Python `\d` (ASCII): `0`-`9`. -/
def isDigitPy (c : Char) : Bool := 48 ≤ c.toNat && c.toNat ≤ 57

/-- `str.strip()`. -/
def pyStrip (s : List Char) : List Char :=
  ((s.dropWhile isSpacePy).reverse.dropWhile isSpacePy).reverse

/-- `str.lower()` (per-character basic-latin lowering). -/
def pyLower (s : List Char) : List Char := s.map Char.toLower

/-- The greedy `(\.\d+)*` tail of the version pattern: repeatedly consume
a dot followed by a nonempty digit run (fuel-indexed structural recursion;
`fuel ≥ length` makes it total). -/
def eatDotGroupsF : Nat → List Char → List Char
  | 0, xs => xs
  | fuel + 1, xs =>
      match xs with
      | a :: c :: cs =>
          if a = '.' ∧ isDigitPy c then
            eatDotGroupsF fuel ((c :: cs).dropWhile isDigitPy)
          else a :: c :: cs
      | xs => xs

/-- The greedy `(\.\d+)*` tail, fully fueled. -/
def eatDotGroups (xs : List Char) : List Char := eatDotGroupsF xs.length xs

theorem eatDotGroupsF_congr :
    ∀ (f1 f2 : Nat) (t : List Char), t.length ≤ f1 → t.length ≤ f2 →
      eatDotGroupsF f1 t = eatDotGroupsF f2 t := by
  intro f1
  induction f1 with
  | zero =>
    intro f2 t h1 _
    have : t = [] := List.eq_nil_of_length_eq_zero (Nat.le_zero.1 h1)
    subst this
    cases f2 <;> rfl
  | succ f1 ih =>
    intro f2 t h1 h2
    match t, f2 with
    | [], f2 => cases f2 <;> rfl
    | [a], f2 + 1 => rfl
    | a :: c :: cs, f2 + 1 =>
      show (if a = '.' ∧ isDigitPy c then
          eatDotGroupsF f1 ((c :: cs).dropWhile isDigitPy) else a :: c :: cs) =
        (if a = '.' ∧ isDigitPy c then
          eatDotGroupsF f2 ((c :: cs).dropWhile isDigitPy) else a :: c :: cs)
      by_cases h : a = '.' ∧ isDigitPy c
      · rw [if_pos h, if_pos h]
        have hd := (@List.dropWhile_sublist _ (c :: cs) isDigitPy).length_le
        simp only [List.length_cons] at hd h1 h2
        exact ih f2 _ (by omega) (by omega)
      · rw [if_neg h, if_neg h]

theorem eatDotGroups_cons (a c : Char) (cs : List Char) :
    eatDotGroups (a :: c :: cs) =
      if a = '.' ∧ isDigitPy c then
        eatDotGroups ((c :: cs).dropWhile isDigitPy)
      else a :: c :: cs := by
  show (if a = '.' ∧ isDigitPy c then
      eatDotGroupsF (cs.length + 1) ((c :: cs).dropWhile isDigitPy)
    else a :: c :: cs) = _
  by_cases h : a = '.' ∧ isDigitPy c
  · rw [if_pos h, if_pos h]
    have hd := (@List.dropWhile_sublist _ (c :: cs) isDigitPy).length_le
    simp only [List.length_cons] at hd
    exact eatDotGroupsF_congr _ _ _ (by omega) le_rfl
  · rw [if_neg h, if_neg h]

theorem eatDotGroups_length_le (t : List Char) :
    (eatDotGroups t).length ≤ t.length := by
  have H : ∀ n (t : List Char), t.length ≤ n →
      (eatDotGroups t).length ≤ t.length := by
    intro n
    induction n with
    | zero =>
      intro t ht
      have : t = [] := List.eq_nil_of_length_eq_zero (Nat.le_zero.1 ht)
      subst this
      simp [eatDotGroups, eatDotGroupsF]
    | succ n ih =>
      intro t ht
      match t with
      | [] => simp [eatDotGroups, eatDotGroupsF]
      | [a] => simp [eatDotGroups, eatDotGroupsF]
      | a :: c :: cs =>
        rw [eatDotGroups_cons]
        by_cases h : a = '.' ∧ isDigitPy c
        · rw [if_pos h]
          have hd := (@List.dropWhile_sublist _ (c :: cs) isDigitPy).length_le
          simp only [List.length_cons] at hd ht ⊢
          have := ih ((c :: cs).dropWhile isDigitPy) (by omega)
          omega
        · rw [if_neg h]
  exact H t.length t le_rfl

/-- Greedy match of `\s+\d+(\.\d+)*` at the start of `xs`; returns the
remainder after the match. -/
def matchVer (xs : List Char) : Option (List Char) :=
  if xs.takeWhile isSpacePy = [] then none
  else
    if (xs.dropWhile isSpacePy).takeWhile isDigitPy = [] then none
    else some (eatDotGroups ((xs.dropWhile isSpacePy).dropWhile isDigitPy))

/-- Greedy match of `\s+v\d+` at the start of `xs`. -/
def matchV (xs : List Char) : Option (List Char) :=
  if xs.takeWhile isSpacePy = [] then none
  else
    match xs.dropWhile isSpacePy with
    | [] => none
    | c :: r2 =>
        if c = 'v' then
          if r2.takeWhile isDigitPy = [] then none
          else some (r2.dropWhile isDigitPy)
        else none

theorem takeWhile_length_add_dropWhile_length (p : Char → Bool)
    (xs : List Char) :
    (xs.takeWhile p).length + (xs.dropWhile p).length = xs.length := by
  rw [← List.length_append, List.takeWhile_append_dropWhile]

theorem matchVer_rest_length {xs rest : List Char}
    (h : matchVer xs = some rest) : rest.length < xs.length := by
  unfold matchVer at h
  by_cases h1 : xs.takeWhile isSpacePy = []
  · rw [if_pos h1] at h
    cases h
  · rw [if_neg h1] at h
    by_cases h2 : (xs.dropWhile isSpacePy).takeWhile isDigitPy = []
    · rw [if_pos h2] at h
      cases h
    · rw [if_neg h2] at h
      cases h
      have e1 := takeWhile_length_add_dropWhile_length isSpacePy xs
      have e2 := takeWhile_length_add_dropWhile_length isDigitPy
        (xs.dropWhile isSpacePy)
      have e3 := eatDotGroups_length_le
        ((xs.dropWhile isSpacePy).dropWhile isDigitPy)
      have h1' : (xs.takeWhile isSpacePy).length ≠ 0 :=
        fun h0 => h1 (List.eq_nil_of_length_eq_zero h0)
      have h2' : ((xs.dropWhile isSpacePy).takeWhile isDigitPy).length ≠ 0 :=
        fun h0 => h2 (List.eq_nil_of_length_eq_zero h0)
      omega

theorem matchV_rest_length {xs rest : List Char}
    (h : matchV xs = some rest) : rest.length < xs.length := by
  unfold matchV at h
  by_cases h1 : xs.takeWhile isSpacePy = []
  · rw [if_pos h1] at h
    cases h
  · rw [if_neg h1] at h
    have e1 := takeWhile_length_add_dropWhile_length isSpacePy xs
    have h1' : (xs.takeWhile isSpacePy).length ≠ 0 :=
      fun h0 => h1 (List.eq_nil_of_length_eq_zero h0)
    rcases hr : xs.dropWhile isSpacePy with _ | ⟨c, r2⟩ <;> rw [hr] at h e1
    · cases h
    · have h' : (if c = 'v' then
          if r2.takeWhile isDigitPy = [] then none
          else some (r2.dropWhile isDigitPy) else none) = some rest := h
      by_cases hc : c = 'v'
      · rw [if_pos hc] at h'
        by_cases h2 : r2.takeWhile isDigitPy = []
        · rw [if_pos h2] at h'
          cases h'
        · rw [if_neg h2] at h'
          cases h'
          have := (@List.dropWhile_sublist _ r2 isDigitPy).length_le
          simp only [List.length_cons] at e1
          omega
      · rw [if_neg hc] at h'
        cases h'

/-- The scan of `re.sub(r'\s+\d+(\.\d+)*', '', s)`: delete each
leftmost greedy match, continue after it (fuel-indexed). -/
def subVerF : Nat → List Char → List Char
  | 0, xs => xs
  | fuel + 1, xs =>
      match xs with
      | [] => []
      | c :: cs =>
          match matchVer (c :: cs) with
          | some rest => subVerF fuel rest
          | none => c :: subVerF fuel cs

/-- `re.sub(r'\s+\d+(\.\d+)*', '', s)`. -/
def subVer (xs : List Char) : List Char := subVerF xs.length xs

/-- The scan of `re.sub(r'\s+v\d+', '', s)` (fuel-indexed). -/
def subVF : Nat → List Char → List Char
  | 0, xs => xs
  | fuel + 1, xs =>
      match xs with
      | [] => []
      | c :: cs =>
          match matchV (c :: cs) with
          | some rest => subVF fuel rest
          | none => c :: subVF fuel cs

/-- `re.sub(r'\s+v\d+', '', s)`. -/
def subV (xs : List Char) : List Char := subVF xs.length xs

theorem subVerF_congr :
    ∀ (f1 f2 : Nat) (t : List Char), t.length ≤ f1 → t.length ≤ f2 →
      subVerF f1 t = subVerF f2 t := by
  intro f1
  induction f1 with
  | zero =>
    intro f2 t h1 _
    have : t = [] := List.eq_nil_of_length_eq_zero (Nat.le_zero.1 h1)
    subst this
    cases f2 <;> rfl
  | succ f1 ih =>
    intro f2 t h1 h2
    match t, f2 with
    | [], f2 => cases f2 <;> rfl
    | c :: cs, f2 + 1 =>
      show (match matchVer (c :: cs) with
          | some rest => subVerF f1 rest
          | none => c :: subVerF f1 cs) =
        (match matchVer (c :: cs) with
          | some rest => subVerF f2 rest
          | none => c :: subVerF f2 cs)
      rcases hm : matchVer (c :: cs) with _ | rest
      · show c :: subVerF f1 cs = c :: subVerF f2 cs
        simp only [List.length_cons] at h1 h2
        rw [ih f2 cs (by omega) (by omega)]
      · show subVerF f1 rest = subVerF f2 rest
        have := matchVer_rest_length hm
        simp only [List.length_cons] at h1 h2 this
        rw [ih f2 rest (by omega) (by omega)]

theorem subVF_congr :
    ∀ (f1 f2 : Nat) (t : List Char), t.length ≤ f1 → t.length ≤ f2 →
      subVF f1 t = subVF f2 t := by
  intro f1
  induction f1 with
  | zero =>
    intro f2 t h1 _
    have : t = [] := List.eq_nil_of_length_eq_zero (Nat.le_zero.1 h1)
    subst this
    cases f2 <;> rfl
  | succ f1 ih =>
    intro f2 t h1 h2
    match t, f2 with
    | [], f2 => cases f2 <;> rfl
    | c :: cs, f2 + 1 =>
      show (match matchV (c :: cs) with
          | some rest => subVF f1 rest
          | none => c :: subVF f1 cs) =
        (match matchV (c :: cs) with
          | some rest => subVF f2 rest
          | none => c :: subVF f2 cs)
      rcases hm : matchV (c :: cs) with _ | rest
      · show c :: subVF f1 cs = c :: subVF f2 cs
        simp only [List.length_cons] at h1 h2
        rw [ih f2 cs (by omega) (by omega)]
      · show subVF f1 rest = subVF f2 rest
        have := matchV_rest_length hm
        simp only [List.length_cons] at h1 h2 this
        rw [ih f2 rest (by omega) (by omega)]

theorem subVer_nil : subVer [] = [] := rfl

theorem subVer_cons (c : Char) (cs : List Char) :
    subVer (c :: cs) =
      match matchVer (c :: cs) with
      | some rest => subVer rest
      | none => c :: subVer cs := by
  show (match matchVer (c :: cs) with
      | some rest => subVerF cs.length rest
      | none => c :: subVerF cs.length cs) = _
  rcases hm : matchVer (c :: cs) with _ | rest
  · rfl
  · show subVerF cs.length rest = subVer rest
    have := matchVer_rest_length hm
    simp only [List.length_cons] at this
    exact subVerF_congr _ _ _ (by omega) le_rfl

theorem subV_nil : subV [] = [] := rfl

theorem subV_cons (c : Char) (cs : List Char) :
    subV (c :: cs) =
      match matchV (c :: cs) with
      | some rest => subV rest
      | none => c :: subV cs := by
  show (match matchV (c :: cs) with
      | some rest => subVF cs.length rest
      | none => c :: subVF cs.length cs) = _
  rcases hm : matchV (c :: cs) with _ | rest
  · rfl
  · show subVF cs.length rest = subV rest
    have := matchV_rest_length hm
    simp only [List.length_cons] at this
    exact subVF_congr _ _ _ (by omega) le_rfl

end Subconscious

namespace Subconscious

/-- The ORG suffix alternatives `inc|llc|ltd|corp|corporation`. -/
def orgAlts : List (List Char) :=
  ["inc".toList, "llc".toList, "ltd".toList, "corp".toList,
    "corporation".toList]

/-- Whether `re.search` of `\s+(inc|llc|ltd|corp|corporation)\.?$` matches
at the *start* of `xs` and reaches the end of the string. -/
def matchOrgAt (xs : List Char) : Bool :=
  decide (xs.takeWhile isSpacePy ≠ []) &&
    orgAlts.any
      (fun alt =>
        decide (xs.dropWhile isSpacePy = alt) ||
          decide (xs.dropWhile isSpacePy = alt ++ ['.']))

/-- The scan of `re.sub(r'\s+(inc|...)\.?$', '', s)`: the match is
anchored at the end, so removing it removes the whole suffix from the
first matching position. -/
def subOrg : List Char → List Char
  | [] => []
  | c :: cs => if matchOrgAt (c :: cs) then [] else c :: subOrg cs

/-- Whether the ORG suffix pattern matches anywhere in `s`. -/
def hasOrgMatch : List Char → Bool
  | [] => false
  | c :: cs => matchOrgAt (c :: cs) || hasOrgMatch cs

/-- The TECH alias table of `normalize_entity_name`. -/
def aliasPairs : List (List Char × List Char) :=
  [("k8s".toList, "kubernetes".toList), ("js".toList, "javascript".toList),
    ("ts".toList, "typescript".toList), ("py".toList, "python".toList),
    ("docker-compose".toList, "docker compose".toList)]

/-- `aliases.get(canonical, canonical)`. -/
def applyAlias (s : List Char) : List Char :=
  match aliasPairs.find? (fun p => decide (p.1 = s)) with
  | some p => p.2
  | none => s

/-- The `Literal` entity types of `schemas.py`. -/
inductive EntityType
  | PERSON | ORG | LOCATION | TECH | CONCEPT | EVENT
  deriving DecidableEq, Repr

/-- `EntityExtractor.normalize_entity_name`: lowercase and strip; for TECH
remove version suffixes (two regex substitutions) and apply the alias
table; for ORG strip one trailing corporate suffix. -/
def normalizeEntityName (name : List Char) (ty : EntityType) : List Char :=
  let canonical := pyStrip (pyLower name)
  match ty with
  | .TECH => applyAlias (subV (subVer canonical))
  | .ORG => subOrg canonical
  | _ => canonical

/-- **C8, counterexample.** `normalize("x inc inc", ORG) = "x inc"`, but
normalizing again strips the newly-exposed suffix: the result is `"x"`,
so canonicalization is not idempotent. -/
theorem normalize_idempotent_cex :
    normalizeEntityName "x inc inc".toList .ORG = "x inc".toList ∧
    normalizeEntityName (normalizeEntityName "x inc inc".toList .ORG) .ORG =
      "x".toList ∧
    normalizeEntityName (normalizeEntityName "x inc inc".toList .ORG) .ORG ≠
      normalizeEntityName "x inc inc".toList .ORG := by
  decide

end Subconscious

namespace Subconscious

theorem toLower_toNat_eq (c : Char) (h : c.toNat ∉ Set.Icc 65 90) :
    c.toLower = c := by
  unfold Char.toLower
  rw [if_neg (by simpa [Set.mem_Icc] using h)]

theorem charToNat_ofNat (m : Nat) (h : m.isValidChar) :
    (Char.ofNat m).toNat = m := by
  unfold Char.ofNat
  rw [dif_pos h]
  simp [Char.ofNatAux, Char.toNat, UInt32.toNat, BitVec.toNat_ofNatLt]

theorem toLower_idem (c : Char) : c.toLower.toLower = c.toLower := by
  unfold Char.toLower
  by_cases h : c.toNat ≥ 65 ∧ c.toNat ≤ 90
  · rw [if_pos h]
    have hv : (c.toNat + 32).isValidChar := Or.inl (by omega)
    have ht := charToNat_ofNat (c.toNat + 32) hv
    rw [if_neg (by rw [ht]; omega)]
  · rw [if_neg h, if_neg h]

theorem isSpacePy_not_isDigitPy {c : Char} (h : isSpacePy c) :
    ¬ isDigitPy c := by
  unfold isSpacePy at h
  unfold isDigitPy
  simp only [Bool.or_eq_true, decide_eq_true_eq] at h
  simp only [Bool.and_eq_true, decide_eq_true_eq, not_and]
  omega

/-- No space character in the head position. -/
def HeadNW (t : List Char) : Prop :=
  ∀ c, t.head? = some c → ¬ isSpacePy c

/-- No space character in the last position. -/
def LastNW (t : List Char) : Prop :=
  ∀ c, t.getLast? = some c → ¬ isSpacePy c

/-- No digit in the head position. -/
def HeadND (t : List Char) : Prop :=
  ∀ c, t.head? = some c → ¬ isDigitPy c

theorem headNW_dropWhile (t : List Char) : HeadNW (t.dropWhile isSpacePy) := by
  intro c hc
  induction t with
  | nil => cases hc
  | cons a l ih =>
    rw [List.dropWhile_cons] at hc
    by_cases ha : isSpacePy a
    · rw [if_pos ha] at hc
      exact ih hc
    · rw [if_neg ha] at hc
      cases hc
      exact ha

theorem headND_dropWhile (t : List Char) : HeadND (t.dropWhile isDigitPy) := by
  intro c hc
  induction t with
  | nil => cases hc
  | cons a l ih =>
    rw [List.dropWhile_cons] at hc
    by_cases ha : isDigitPy a
    · rw [if_pos ha] at hc
      exact ih hc
    · rw [if_neg ha] at hc
      cases hc
      exact ha

theorem dropWhile_eq_self_of_headNW {p : Char → Bool} {t : List Char}
    (h : ∀ c, t.head? = some c → ¬ p c) : t.dropWhile p = t := by
  cases t with
  | nil => rfl
  | cons a l =>
    rw [List.dropWhile_cons, if_neg (h a rfl)]

theorem takeWhile_eq_nil_iff_head {p : Char → Bool} {t : List Char} :
    t.takeWhile p = [] ↔ ∀ c, t.head? = some c → ¬ p c := by
  cases t with
  | nil => simp
  | cons a l =>
    rw [List.takeWhile_cons]
    by_cases ha : p a
    · simp [ha]
    · simp [ha]

theorem getLast?_suffix {t l : List Char} (h : t <:+ l) (ht : t ≠ []) :
    t.getLast? = l.getLast? := by
  obtain ⟨pre, rfl⟩ := h
  rw [List.getLast?_append_of_ne_nil _ ht]

theorem suffix_mem {t l : List Char} (h : t <:+ l) {c : Char} (hc : c ∈ t) :
    c ∈ l := h.sublist.mem hc

end Subconscious

namespace Subconscious

/-- After skipping leading whitespace, a digit follows (the part of the
version pattern beyond `\s+`). -/
def DReady (t : List Char) : Prop :=
  (t.dropWhile isSpacePy).takeWhile isDigitPy ≠ []

/-- After skipping leading whitespace, `v` plus a digit follows. -/
def VReady (t : List Char) : Prop :=
  ∃ r, t.dropWhile isSpacePy = 'v' :: r ∧ r.takeWhile isDigitPy ≠ []

theorem dropWhile_cons_ws {c : Char} (hc : isSpacePy c) (t : List Char) :
    (c :: t).dropWhile isSpacePy = t.dropWhile isSpacePy := by
  rw [List.dropWhile_cons, if_pos hc]

theorem dropWhile_cons_not_ws {c : Char} (hc : ¬ isSpacePy c)
    (t : List Char) : (c :: t).dropWhile isSpacePy = c :: t := by
  rw [List.dropWhile_cons, if_neg hc]

theorem DReady_cons_ws {c : Char} (hc : isSpacePy c) (t : List Char) :
    DReady (c :: t) ↔ DReady t := by
  unfold DReady
  rw [dropWhile_cons_ws hc]

theorem DReady_cons_not_ws {c : Char} (hc : ¬ isSpacePy c) (t : List Char) :
    DReady (c :: t) ↔ isDigitPy c := by
  unfold DReady
  rw [dropWhile_cons_not_ws hc, List.takeWhile_cons]
  by_cases hd : isDigitPy c
  · simp [hd]
  · simp [hd]

theorem VReady_cons_ws {c : Char} (hc : isSpacePy c) (t : List Char) :
    VReady (c :: t) ↔ VReady t := by
  unfold VReady
  rw [dropWhile_cons_ws hc]

theorem VReady_cons_not_ws {c : Char} (hc : ¬ isSpacePy c) (t : List Char) :
    VReady (c :: t) ↔ (c = 'v' ∧ t.takeWhile isDigitPy ≠ []) := by
  unfold VReady
  rw [dropWhile_cons_not_ws hc]
  constructor
  · rintro ⟨r, hr, hd⟩
    cases hr
    exact ⟨rfl, hd⟩
  · rintro ⟨rfl, hd⟩
    exact ⟨t, rfl, hd⟩

theorem matchVer_cons_not_ws {c : Char} (hc : ¬ isSpacePy c)
    (cs : List Char) : matchVer (c :: cs) = none := by
  unfold matchVer
  rw [if_pos (by rw [List.takeWhile_cons, if_neg hc])]

theorem matchV_cons_not_ws {c : Char} (hc : ¬ isSpacePy c)
    (cs : List Char) : matchV (c :: cs) = none := by
  unfold matchV
  rw [if_pos (by rw [List.takeWhile_cons, if_neg hc])]

theorem matchVer_cons_ws_iff {c : Char} (hc : isSpacePy c) (cs : List Char) :
    matchVer (c :: cs) = none ↔ ¬ DReady cs := by
  unfold matchVer
  rw [if_neg (by rw [List.takeWhile_cons, if_pos hc]; simp)]
  rw [dropWhile_cons_ws hc]
  unfold DReady
  by_cases h : (cs.dropWhile isSpacePy).takeWhile isDigitPy = []
  · simp [h]
  · simp [h]

theorem matchV_cons_ws_iff {c : Char} (hc : isSpacePy c) (cs : List Char) :
    matchV (c :: cs) = none ↔ ¬ VReady cs := by
  unfold matchV
  rw [if_neg (by rw [List.takeWhile_cons, if_pos hc]; simp)]
  rw [dropWhile_cons_ws hc]
  unfold VReady
  rcases hd : cs.dropWhile isSpacePy with _ | ⟨a, r⟩
  · simp
  · by_cases ha : a = 'v'
    · subst ha
      show (if ('v' : Char) = 'v' then
          if r.takeWhile isDigitPy = [] then none
          else some (r.dropWhile isDigitPy) else none) = none ↔ _
      rw [if_pos rfl]
      by_cases hr : r.takeWhile isDigitPy = []
      · rw [if_pos hr]
        constructor
        · rintro _ ⟨r', hr', hd'⟩
          cases hr'
          exact hd' hr
        · intro _
          rfl
      · rw [if_neg hr]
        constructor
        · intro h
          cases h
        · intro h
          exact absurd ⟨r, rfl, hr⟩ h
    · show (if a = 'v' then
          if r.takeWhile isDigitPy = [] then none
          else some (r.dropWhile isDigitPy) else none) = none ↔ _
      rw [if_neg ha]
      constructor
      · rintro _ ⟨r', hr', hd'⟩
        cases hr'
        exact ha rfl
      · intro _
        rfl

theorem matchVer_some_DReady {x rest : List Char}
    (h : matchVer x = some rest) : DReady x := by
  unfold matchVer at h
  by_cases h1 : x.takeWhile isSpacePy = []
  · rw [if_pos h1] at h
    cases h
  · rw [if_neg h1] at h
    by_cases h2 : (x.dropWhile isSpacePy).takeWhile isDigitPy = []
    · rw [if_pos h2] at h
      cases h
    · exact h2

theorem matchV_some_VReady {x rest : List Char}
    (h : matchV x = some rest) : VReady x := by
  unfold matchV at h
  by_cases h1 : x.takeWhile isSpacePy = []
  · rw [if_pos h1] at h
    cases h
  · rw [if_neg h1] at h
    rcases hd : x.dropWhile isSpacePy with _ | ⟨a, r⟩ <;> rw [hd] at h
    · cases h
    · have h' : (if a = 'v' then
          if r.takeWhile isDigitPy = [] then none
          else some (r.dropWhile isDigitPy) else none) = some rest := h
      by_cases ha : a = 'v'
      · rw [if_pos ha] at h'
        by_cases hr : r.takeWhile isDigitPy = []
        · rw [if_pos hr] at h'
          cases h'
        · exact ⟨r, ha ▸ hd, hr⟩
      · rw [if_neg ha] at h'
        cases h'

end Subconscious

namespace Subconscious

theorem eatDotGroups_suffix (t : List Char) : eatDotGroups t <:+ t := by
  have H : ∀ n (t : List Char), t.length ≤ n → eatDotGroups t <:+ t := by
    intro n
    induction n with
    | zero =>
      intro t ht
      have : t = [] := List.eq_nil_of_length_eq_zero (Nat.le_zero.1 ht)
      subst this
      exact List.suffix_refl _
    | succ n ih =>
      intro t ht
      match t with
      | [] => exact List.suffix_refl _
      | [a] => exact List.suffix_refl _
      | a :: c :: cs =>
        rw [eatDotGroups_cons]
        by_cases h : a = '.' ∧ isDigitPy c
        · rw [if_pos h]
          have hd := (@List.dropWhile_sublist _ (c :: cs) isDigitPy).length_le
          simp only [List.length_cons] at hd ht
          have hs1 : eatDotGroups ((c :: cs).dropWhile isDigitPy) <:+
              (c :: cs).dropWhile isDigitPy := ih _ (by omega)
          have hs2 : (c :: cs).dropWhile isDigitPy <:+ c :: cs :=
            List.dropWhile_suffix isDigitPy
          have hs3 : (c :: cs) <:+ a :: c :: cs := List.suffix_cons a (c :: cs)
          exact hs1.trans (hs2.trans hs3)
        · rw [if_neg h]
  exact H t.length t le_rfl

theorem matchVer_rest_suffix {x rest : List Char}
    (h : matchVer x = some rest) : rest <:+ x := by
  unfold matchVer at h
  by_cases h1 : x.takeWhile isSpacePy = []
  · rw [if_pos h1] at h
    cases h
  · rw [if_neg h1] at h
    by_cases h2 : (x.dropWhile isSpacePy).takeWhile isDigitPy = []
    · rw [if_pos h2] at h
      cases h
    · rw [if_neg h2] at h
      cases h
      exact (eatDotGroups_suffix _).trans
        ((List.dropWhile_suffix isDigitPy).trans
          (List.dropWhile_suffix isSpacePy))

theorem matchV_rest_suffix {x rest : List Char}
    (h : matchV x = some rest) : rest <:+ x := by
  unfold matchV at h
  by_cases h1 : x.takeWhile isSpacePy = []
  · rw [if_pos h1] at h
    cases h
  · rw [if_neg h1] at h
    rcases hd : x.dropWhile isSpacePy with _ | ⟨a, r⟩ <;> rw [hd] at h
    · cases h
    · have h' : (if a = 'v' then
          if r.takeWhile isDigitPy = [] then none
          else some (r.dropWhile isDigitPy) else none) = some rest := h
      by_cases ha : a = 'v'
      · rw [if_pos ha] at h'
        by_cases hr : r.takeWhile isDigitPy = []
        · rw [if_pos hr] at h'
          cases h'
        · rw [if_neg hr] at h'
          cases h'
          refine (List.dropWhile_suffix isDigitPy).trans ?_
          refine ((List.suffix_cons a r).trans ?_)
          rw [← hd]
          exact List.dropWhile_suffix isSpacePy
      · rw [if_neg ha] at h'
        cases h'

theorem eatDotGroups_headND {t : List Char} (h : HeadND t) :
    HeadND (eatDotGroups t) := by
  have H : ∀ n (t : List Char), t.length ≤ n → HeadND t →
      HeadND (eatDotGroups t) := by
    intro n
    induction n with
    | zero =>
      intro t ht h
      have : t = [] := List.eq_nil_of_length_eq_zero (Nat.le_zero.1 ht)
      subst this
      exact h
    | succ n ih =>
      intro t ht h
      match t with
      | [] => exact h
      | [a] => exact h
      | a :: c :: cs =>
        rw [eatDotGroups_cons]
        by_cases hx : a = '.' ∧ isDigitPy c
        · rw [if_pos hx]
          have hd := (@List.dropWhile_sublist _ (c :: cs) isDigitPy).length_le
          simp only [List.length_cons] at hd ht
          exact ih _ (by omega) (headND_dropWhile _)
        · rw [if_neg hx]
          exact h
  exact H t.length t le_rfl h

theorem matchVer_rest_headND {x rest : List Char}
    (h : matchVer x = some rest) : HeadND rest := by
  unfold matchVer at h
  by_cases h1 : x.takeWhile isSpacePy = []
  · rw [if_pos h1] at h
    cases h
  · rw [if_neg h1] at h
    by_cases h2 : (x.dropWhile isSpacePy).takeWhile isDigitPy = []
    · rw [if_pos h2] at h
      cases h
    · rw [if_neg h2] at h
      cases h
      exact eatDotGroups_headND (headND_dropWhile _)

theorem matchV_rest_headND {x rest : List Char}
    (h : matchV x = some rest) : HeadND rest := by
  unfold matchV at h
  by_cases h1 : x.takeWhile isSpacePy = []
  · rw [if_pos h1] at h
    cases h
  · rw [if_neg h1] at h
    rcases hd : x.dropWhile isSpacePy with _ | ⟨a, r⟩ <;> rw [hd] at h
    · cases h
    · have h' : (if a = 'v' then
          if r.takeWhile isDigitPy = [] then none
          else some (r.dropWhile isDigitPy) else none) = some rest := h
      by_cases ha : a = 'v'
      · rw [if_pos ha] at h'
        by_cases hr : r.takeWhile isDigitPy = []
        · rw [if_pos hr] at h'
          cases h'
        · rw [if_neg hr] at h'
          cases h'
          exact headND_dropWhile _
      · rw [if_neg ha] at h'
        cases h'

theorem subVer_headND {t : List Char} (h : HeadND t) : HeadND (subVer t) := by
  have H : ∀ n (t : List Char), t.length ≤ n → HeadND t →
      HeadND (subVer t) := by
    intro n
    induction n with
    | zero =>
      intro t ht h
      have : t = [] := List.eq_nil_of_length_eq_zero (Nat.le_zero.1 ht)
      subst this
      exact h
    | succ n ih =>
      intro t ht h
      match t with
      | [] => exact h
      | c :: cs =>
        rw [subVer_cons]
        rcases hm : matchVer (c :: cs) with _ | rest
        · intro d hd
          cases hd
          exact h c rfl
        · have hl := matchVer_rest_length hm
          simp only [List.length_cons] at hl ht
          exact ih rest (by omega) (matchVer_rest_headND hm)
  exact H t.length t le_rfl h

theorem subV_headND {t : List Char} (h : HeadND t) : HeadND (subV t) := by
  have H : ∀ n (t : List Char), t.length ≤ n → HeadND t →
      HeadND (subV t) := by
    intro n
    induction n with
    | zero =>
      intro t ht h
      have : t = [] := List.eq_nil_of_length_eq_zero (Nat.le_zero.1 ht)
      subst this
      exact h
    | succ n ih =>
      intro t ht h
      match t with
      | [] => exact h
      | c :: cs =>
        rw [subV_cons]
        rcases hm : matchV (c :: cs) with _ | rest
        · intro d hd
          cases hd
          exact h c rfl
        · have hl := matchV_rest_length hm
          simp only [List.length_cons] at hl ht
          exact ih rest (by omega) (matchV_rest_headND hm)
  exact H t.length t le_rfl h

end Subconscious

namespace Subconscious

/-- No version-pattern match at any position (suffix) of `s`. -/
def NoVerMatch (s : List Char) : Prop := ∀ t, t <:+ s → matchVer t = none

/-- No `\s+v\d+` match at any position (suffix) of `s`. -/
def NoVMatch (s : List Char) : Prop := ∀ t, t <:+ s → matchV t = none

theorem NoVerMatch_tail {c : Char} {cs : List Char}
    (h : NoVerMatch (c :: cs)) : NoVerMatch cs :=
  fun t ht => h t (ht.trans (List.suffix_cons c cs))

theorem NoVMatch_tail {c : Char} {cs : List Char}
    (h : NoVMatch (c :: cs)) : NoVMatch cs :=
  fun t ht => h t (ht.trans (List.suffix_cons c cs))

theorem subVer_notDReady {t : List Char} (h : ¬ DReady t) :
    ¬ DReady (subVer t) := by
  have H : ∀ n (t : List Char), t.length ≤ n → ¬ DReady t →
      ¬ DReady (subVer t) := by
    intro n
    induction n with
    | zero =>
      intro t ht h
      have : t = [] := List.eq_nil_of_length_eq_zero (Nat.le_zero.1 ht)
      subst this
      exact h
    | succ n ih =>
      intro t ht h
      match t with
      | [] => exact h
      | c :: cs =>
        rw [subVer_cons]
        rcases hm : matchVer (c :: cs) with _ | rest
        · simp only [List.length_cons] at ht
          by_cases hc : isSpacePy c
          · rw [DReady_cons_ws hc] at h ⊢
            exact ih cs (by omega) h
          · rw [DReady_cons_not_ws hc] at h ⊢
            exact h
        · exact absurd (matchVer_some_DReady hm) h
  exact H t.length t le_rfl h

theorem subV_notVReady {t : List Char} (h : ¬ VReady t) :
    ¬ VReady (subV t) := by
  have H : ∀ n (t : List Char), t.length ≤ n → ¬ VReady t →
      ¬ VReady (subV t) := by
    intro n
    induction n with
    | zero =>
      intro t ht h
      have : t = [] := List.eq_nil_of_length_eq_zero (Nat.le_zero.1 ht)
      subst this
      exact h
    | succ n ih =>
      intro t ht h
      match t with
      | [] => exact h
      | c :: cs =>
        rw [subV_cons]
        rcases hm : matchV (c :: cs) with _ | rest
        · simp only [List.length_cons] at ht
          by_cases hc : isSpacePy c
          · rw [VReady_cons_ws hc] at h ⊢
            exact ih cs (by omega) h
          · rw [VReady_cons_not_ws hc] at h ⊢
            intro hx
            refine h ⟨hx.1, ?_⟩
            intro hcs
            refine hx.2 (takeWhile_eq_nil_iff_head.2 ?_)
            have hnd : HeadND cs := takeWhile_eq_nil_iff_head.1 hcs
            exact subV_headND hnd
        · exact absurd (matchV_some_VReady hm) h
  exact H t.length t le_rfl h

theorem subVer_NoVerMatch (s : List Char) : NoVerMatch (subVer s) := by
  have H : ∀ n (s : List Char), s.length ≤ n → NoVerMatch (subVer s) := by
    intro n
    induction n with
    | zero =>
      intro s hs
      have : s = [] := List.eq_nil_of_length_eq_zero (Nat.le_zero.1 hs)
      subst this
      intro t ht
      rw [List.suffix_nil.1 ht]
      rfl
    | succ n ih =>
      intro s hs
      match s with
      | [] =>
        intro t ht
        rw [List.suffix_nil.1 ht]
        rfl
      | c :: cs =>
        rw [subVer_cons]
        rcases hm : matchVer (c :: cs) with _ | rest
        · simp only [List.length_cons] at hs
          intro t ht
          rcases List.suffix_cons_iff.1 ht with rfl | ht
          · by_cases hc : isSpacePy c
            · rw [matchVer_cons_ws_iff hc]
              have hd : ¬ DReady cs := (matchVer_cons_ws_iff hc cs).1 hm
              exact subVer_notDReady hd
            · exact matchVer_cons_not_ws hc _
          · exact ih cs (by omega) t ht
        · have hl := matchVer_rest_length hm
          simp only [List.length_cons] at hl hs
          exact ih rest (by omega)
  exact H s.length s le_rfl

theorem subV_NoVMatch (s : List Char) : NoVMatch (subV s) := by
  have H : ∀ n (s : List Char), s.length ≤ n → NoVMatch (subV s) := by
    intro n
    induction n with
    | zero =>
      intro s hs
      have : s = [] := List.eq_nil_of_length_eq_zero (Nat.le_zero.1 hs)
      subst this
      intro t ht
      rw [List.suffix_nil.1 ht]
      rfl
    | succ n ih =>
      intro s hs
      match s with
      | [] =>
        intro t ht
        rw [List.suffix_nil.1 ht]
        rfl
      | c :: cs =>
        rw [subV_cons]
        rcases hm : matchV (c :: cs) with _ | rest
        · simp only [List.length_cons] at hs
          intro t ht
          rcases List.suffix_cons_iff.1 ht with rfl | ht
          · by_cases hc : isSpacePy c
            · rw [matchV_cons_ws_iff hc]
              have hd : ¬ VReady cs := (matchV_cons_ws_iff hc cs).1 hm
              exact subV_notVReady hd
            · exact matchV_cons_not_ws hc _
          · exact ih cs (by omega) t ht
        · have hl := matchV_rest_length hm
          simp only [List.length_cons] at hl hs
          exact ih rest (by omega)
  exact H s.length s le_rfl

theorem subVer_eq_self {s : List Char} (h : NoVerMatch s) : subVer s = s := by
  induction s with
  | nil => rfl
  | cons c cs ih =>
    rw [subVer_cons, h (c :: cs) (List.suffix_refl _)]
    rw [ih (NoVerMatch_tail h)]

theorem subV_eq_self {s : List Char} (h : NoVMatch s) : subV s = s := by
  induction s with
  | nil => rfl
  | cons c cs ih =>
    rw [subV_cons, h (c :: cs) (List.suffix_refl _)]
    rw [ih (NoVMatch_tail h)]

theorem subVer_idem (s : List Char) : subVer (subVer s) = subVer s :=
  subVer_eq_self (subVer_NoVerMatch s)

theorem subV_idem (s : List Char) : subV (subV s) = subV s :=
  subV_eq_self (subV_NoVMatch s)

end Subconscious

namespace Subconscious

theorem subVer_length_le (s : List Char) : (subVer s).length ≤ s.length := by
  have H : ∀ n (s : List Char), s.length ≤ n →
      (subVer s).length ≤ s.length := by
    intro n
    induction n with
    | zero =>
      intro s hs
      have : s = [] := List.eq_nil_of_length_eq_zero (Nat.le_zero.1 hs)
      subst this
      exact le_refl _
    | succ n ih =>
      intro s hs
      match s with
      | [] => exact le_refl _
      | c :: cs =>
        rw [subVer_cons]
        rcases hm : matchVer (c :: cs) with _ | rest
        · simp only [List.length_cons] at hs ⊢
          have := ih cs (by omega)
          omega
        · have hl := matchVer_rest_length hm
          simp only [List.length_cons] at hl hs ⊢
          have := ih rest (by omega)
          omega
  exact H s.length s le_rfl

theorem noVerMatch_of_subVer_eq {s : List Char} (h : subVer s = s) :
    NoVerMatch s := by
  have H : ∀ n (s : List Char), s.length ≤ n → subVer s = s →
      NoVerMatch s := by
    intro n
    induction n with
    | zero =>
      intro s hs _
      have : s = [] := List.eq_nil_of_length_eq_zero (Nat.le_zero.1 hs)
      subst this
      intro t ht
      rw [List.suffix_nil.1 ht]
      rfl
    | succ n ih =>
      intro s hs h
      match s with
      | [] =>
        intro t ht
        rw [List.suffix_nil.1 ht]
        rfl
      | c :: cs =>
        rw [subVer_cons] at h
        rcases hm : matchVer (c :: cs) with _ | rest <;> rw [hm] at h
        · have h' : c :: subVer cs = c :: cs := h
          have hcs : subVer cs = cs := by injection h'
          intro t ht
          rcases List.suffix_cons_iff.1 ht with rfl | ht
          · exact hm
          · simp only [List.length_cons] at hs
            exact ih cs (by omega) hcs t ht
        · exfalso
          have h' : subVer rest = c :: cs := h
          have hl := matchVer_rest_length hm
          have h2 := subVer_length_le rest
          rw [h'] at h2
          simp only [List.length_cons] at hl h2
          omega
  exact H s.length s le_rfl h

end Subconscious

namespace Subconscious

theorem subV_notDReady_cross {t : List Char} (hnm : NoVerMatch t)
    (h : ¬ DReady t) : ¬ DReady (subV t) := by
  have H : ∀ n (t : List Char), t.length ≤ n → NoVerMatch t → ¬ DReady t →
      ¬ DReady (subV t) := by
    intro n
    induction n with
    | zero =>
      intro t ht _ h
      have : t = [] := List.eq_nil_of_length_eq_zero (Nat.le_zero.1 ht)
      subst this
      exact h
    | succ n ih =>
      intro t ht hnm h
      match t with
      | [] => exact h
      | c :: cs =>
        rw [subV_cons]
        rcases hm : matchV (c :: cs) with _ | rest
        · simp only [List.length_cons] at ht
          by_cases hc : isSpacePy c
          · rw [DReady_cons_ws hc] at h ⊢
            exact ih cs (by omega) (NoVerMatch_tail hnm) h
          · rw [DReady_cons_not_ws hc] at h ⊢
            exact h
        · have hl := matchV_rest_length hm
          simp only [List.length_cons] at hl ht
          have hsuf : rest <:+ c :: cs := matchV_rest_suffix hm
          have hnm' : NoVerMatch rest := fun u hu => hnm u (hu.trans hsuf)
          have hnd : HeadND rest := matchV_rest_headND hm
          have hd : ¬ DReady rest := by
            intro hd
            match rest, hnd with
            | [], _ => exact hd rfl
            | r :: rs, hnd =>
              by_cases hr : isSpacePy r
              · rw [DReady_cons_ws hr] at hd
                have : matchVer (r :: rs) = none :=
                  hnm' (r :: rs) (List.suffix_refl _)
                exact (matchVer_cons_ws_iff hr rs).1 this hd
              · rw [DReady_cons_not_ws hr] at hd
                exact hnd r rfl hd
          exact ih rest (by omega) hnm' hd
  exact H t.length t le_rfl hnm h

theorem subV_preserves_NoVerMatch {t : List Char} (hnm : NoVerMatch t) :
    NoVerMatch (subV t) := by
  have H : ∀ n (t : List Char), t.length ≤ n → NoVerMatch t →
      NoVerMatch (subV t) := by
    intro n
    induction n with
    | zero =>
      intro t ht _
      have : t = [] := List.eq_nil_of_length_eq_zero (Nat.le_zero.1 ht)
      subst this
      intro u hu
      rw [List.suffix_nil.1 hu]
      rfl
    | succ n ih =>
      intro t ht hnm
      match t with
      | [] =>
        intro u hu
        rw [List.suffix_nil.1 hu]
        rfl
      | c :: cs =>
        rw [subV_cons]
        rcases hm : matchV (c :: cs) with _ | rest
        · simp only [List.length_cons] at ht
          intro u hu
          rcases List.suffix_cons_iff.1 hu with rfl | hu
          · by_cases hc : isSpacePy c
            · rw [matchVer_cons_ws_iff hc]
              have hd : ¬ DReady cs := by
                have := hnm (c :: cs) (List.suffix_refl _)
                exact (matchVer_cons_ws_iff hc cs).1 this
              exact subV_notDReady_cross (NoVerMatch_tail hnm) hd
            · exact matchVer_cons_not_ws hc _
          · exact ih cs (by omega) (NoVerMatch_tail hnm) u hu
        · have hl := matchV_rest_length hm
          simp only [List.length_cons] at hl ht
          have hsuf : rest <:+ c :: cs := matchV_rest_suffix hm
          exact ih rest (by omega) (fun u hu => hnm u (hu.trans hsuf))
  exact H t.length t le_rfl hnm

theorem subVer_subV_of_eq {t : List Char} (h : subVer t = t) :
    subVer (subV t) = subV t :=
  subVer_eq_self (subV_preserves_NoVerMatch (noVerMatch_of_subVer_eq h))

end Subconscious

namespace Subconscious

theorem matchOrgAt_not_ws {c : Char} (hc : ¬ isSpacePy c) (cs : List Char) :
    matchOrgAt (c :: cs) = false := by
  unfold matchOrgAt
  rw [List.takeWhile_cons, if_neg hc]
  simp

theorem matchOrgAt_cons_ws_extend {c : Char} (hc : isSpacePy c)
    {cs : List Char} (h : matchOrgAt cs = true) :
    matchOrgAt (c :: cs) = true := by
  unfold matchOrgAt at h ⊢
  rw [List.takeWhile_cons, if_pos hc, dropWhile_cons_ws hc]
  rw [Bool.and_eq_true] at h
  simp only [Bool.and_eq_true, decide_eq_true_eq]
  exact ⟨by simp, h.2⟩

theorem subOrg_eq_self {s : List Char} (h : hasOrgMatch s = false) :
    subOrg s = s := by
  induction s with
  | nil => rfl
  | cons c cs ih =>
    rw [hasOrgMatch, Bool.or_eq_false_iff] at h
    rw [subOrg, if_neg (by rw [h.1]; exact fun hx => Bool.false_ne_true hx)]
    rw [ih h.2]

theorem subOrg_eq_nil {cs : List Char} (h : subOrg cs = []) :
    cs = [] ∨ matchOrgAt cs = true := by
  match cs with
  | [] => exact Or.inl rfl
  | c :: cs' =>
    rw [subOrg] at h
    by_cases hm : matchOrgAt (c :: cs')
    · exact Or.inr hm
    · rw [if_neg hm] at h
      cases h

theorem mem_subOrg {s : List Char} {c : Char} (h : c ∈ subOrg s) : c ∈ s := by
  induction s with
  | nil => cases h
  | cons a l ih =>
    rw [subOrg] at h
    by_cases hm : matchOrgAt (a :: l)
    · rw [if_pos hm] at h
      cases h
    · rw [if_neg hm] at h
      rcases List.mem_cons.1 h with rfl | h
      · exact List.mem_cons_self _ _
      · exact List.mem_cons_of_mem _ (ih h)

theorem getLast?_cons_ne_nil {c : Char} {l : List Char} (h : l ≠ []) :
    (c :: l).getLast? = l.getLast? := by
  show ([c] ++ l).getLast? = l.getLast?
  rw [List.getLast?_append_of_ne_nil _ h]

theorem subOrg_headNW {s : List Char} (h : HeadNW s) : HeadNW (subOrg s) := by
  match s with
  | [] => exact h
  | c :: cs =>
    rw [subOrg]
    by_cases hm : matchOrgAt (c :: cs)
    · rw [if_pos hm]
      intro d hd
      cases hd
    · rw [if_neg hm]
      intro d hd
      cases hd
      exact h _ rfl

theorem subOrg_lastNW {s : List Char} (h : LastNW s) : LastNW (subOrg s) := by
  induction s with
  | nil => exact h
  | cons c cs ih =>
    rw [subOrg]
    by_cases hm : matchOrgAt (c :: cs)
    · rw [if_pos hm]
      intro d hd
      cases hd
    · rw [if_neg hm]
      rcases hcs : subOrg cs with _ | ⟨a, l⟩
      · rcases subOrg_eq_nil hcs with rfl | horg
        · exact h
        · have hcw : ¬ isSpacePy c := by
            intro hw
            exact hm (matchOrgAt_cons_ws_extend hw horg)
          intro d hd
          cases hd
          exact hcw
      · have hne : subOrg cs ≠ [] := by rw [hcs]; simp
        have hcsne : cs ≠ [] := by
          intro hx
          subst hx
          exact hne rfl
        rw [← hcs]
        intro d hd
        rw [getLast?_cons_ne_nil hne] at hd
        refine ih ?_ d hd
        intro e he
        refine h e ?_
        rw [getLast?_cons_ne_nil hcsne]
        exact he

theorem headNW_pyStrip (s : List Char) : HeadNW (pyStrip s) := by
  unfold pyStrip
  intro c hc
  rw [List.head?_reverse] at hc
  rcases hB : (s.dropWhile isSpacePy).reverse.dropWhile isSpacePy
    with _ | ⟨a, l⟩
  · rw [hB] at hc
    cases hc
  · rw [hB] at hc
    have hBne : (s.dropWhile isSpacePy).reverse.dropWhile isSpacePy ≠ [] := by
      rw [hB]
      simp
    have hsuf := @List.dropWhile_suffix _
      ((s.dropWhile isSpacePy).reverse) isSpacePy
    have hlast : ((s.dropWhile isSpacePy).reverse.dropWhile
        isSpacePy).getLast? = (s.dropWhile isSpacePy).reverse.getLast? :=
      getLast?_suffix hsuf hBne
    rw [hB] at hlast
    rw [hc] at hlast
    rw [List.getLast?_reverse] at hlast
    exact headNW_dropWhile s c hlast.symm

theorem lastNW_pyStrip (s : List Char) : LastNW (pyStrip s) := by
  unfold pyStrip
  intro c hc
  rw [List.getLast?_reverse] at hc
  exact headNW_dropWhile _ c hc

theorem pyStrip_eq_self {s : List Char} (hh : HeadNW s) (hl : LastNW s) :
    pyStrip s = s := by
  unfold pyStrip
  rw [dropWhile_eq_self_of_headNW hh]
  have : s.reverse.dropWhile isSpacePy = s.reverse := by
    refine dropWhile_eq_self_of_headNW ?_
    intro c hc
    rw [List.head?_reverse] at hc
    exact hl c hc
  rw [this, List.reverse_reverse]

/-- Every character of `s` is already lowercase. -/
def LoweredL (s : List Char) : Prop := ∀ c ∈ s, c.toLower = c

theorem pyLower_eq_self {s : List Char} (h : LoweredL s) : pyLower s = s := by
  unfold pyLower
  rw [List.map_congr_left h]
  simp

theorem loweredL_pyLower (s : List Char) : LoweredL (pyLower s) := by
  intro c hc
  unfold pyLower at hc
  rw [List.mem_map] at hc
  obtain ⟨a, _, rfl⟩ := hc
  exact toLower_idem a

theorem mem_pyStrip {s : List Char} {c : Char} (h : c ∈ pyStrip s) :
    c ∈ s := by
  unfold pyStrip at h
  rw [List.mem_reverse] at h
  have h1 := (List.dropWhile_sublist isSpacePy).mem h
  rw [List.mem_reverse] at h1
  exact (List.dropWhile_sublist isSpacePy).mem h1

theorem mem_subVer {s : List Char} {c : Char} (h : c ∈ subVer s) : c ∈ s := by
  have H : ∀ n (s : List Char), s.length ≤ n → ∀ c, c ∈ subVer s → c ∈ s := by
    intro n
    induction n with
    | zero =>
      intro s hs c h
      have : s = [] := List.eq_nil_of_length_eq_zero (Nat.le_zero.1 hs)
      subst this
      exact h
    | succ n ih =>
      intro s hs c h
      match s with
      | [] => exact h
      | a :: cs =>
        rw [subVer_cons] at h
        rcases hm : matchVer (a :: cs) with _ | rest <;> rw [hm] at h
        · simp only [List.length_cons] at hs
          rcases List.mem_cons.1 h with rfl | h
          · exact List.mem_cons_self _ _
          · exact List.mem_cons_of_mem _ (ih cs (by omega) c h)
        · have hl := matchVer_rest_length hm
          simp only [List.length_cons] at hl hs
          exact suffix_mem (matchVer_rest_suffix hm) (ih rest (by omega) c h)
  exact H s.length s le_rfl c h

theorem mem_subV {s : List Char} {c : Char} (h : c ∈ subV s) : c ∈ s := by
  have H : ∀ n (s : List Char), s.length ≤ n → ∀ c, c ∈ subV s → c ∈ s := by
    intro n
    induction n with
    | zero =>
      intro s hs c h
      have : s = [] := List.eq_nil_of_length_eq_zero (Nat.le_zero.1 hs)
      subst this
      exact h
    | succ n ih =>
      intro s hs c h
      match s with
      | [] => exact h
      | a :: cs =>
        rw [subV_cons] at h
        rcases hm : matchV (a :: cs) with _ | rest <;> rw [hm] at h
        · simp only [List.length_cons] at hs
          rcases List.mem_cons.1 h with rfl | h
          · exact List.mem_cons_self _ _
          · exact List.mem_cons_of_mem _ (ih cs (by omega) c h)
        · have hl := matchV_rest_length hm
          simp only [List.length_cons] at hl hs
          exact suffix_mem (matchV_rest_suffix hm) (ih rest (by omega) c h)
  exact H s.length s le_rfl c h

end Subconscious

namespace Subconscious

theorem lastNW_of_suffix {t s : List Char} (hsuf : t <:+ s) (hs : LastNW s) :
    LastNW t := by
  intro d hd
  have hne : t ≠ [] := by
    intro h0
    subst h0
    cases hd
  rw [getLast?_suffix hsuf hne] at hd
  exact hs d hd

theorem subVer_headNW {s : List Char} (h : HeadNW s) : HeadNW (subVer s) := by
  match s with
  | [] => exact h
  | c :: cs =>
    have hc : ¬ isSpacePy c := h c rfl
    rw [subVer_cons, matchVer_cons_not_ws hc]
    show HeadNW (c :: subVer cs)
    intro d hd
    cases hd
    exact hc

theorem subV_headNW {s : List Char} (h : HeadNW s) : HeadNW (subV s) := by
  match s with
  | [] => exact h
  | c :: cs =>
    have hc : ¬ isSpacePy c := h c rfl
    rw [subV_cons, matchV_cons_not_ws hc]
    show HeadNW (c :: subV cs)
    intro d hd
    cases hd
    exact hc

theorem subVer_eq_nil {cs : List Char} (h : subVer cs = []) :
    cs = [] ∨ ∃ r, matchVer cs = some r := by
  match cs with
  | [] => exact Or.inl rfl
  | c :: cs' =>
    rw [subVer_cons] at h
    rcases hm : matchVer (c :: cs') with _ | rest <;> rw [hm] at h
    · cases h
    · exact Or.inr ⟨rest, rfl⟩

theorem subV_eq_nil {cs : List Char} (h : subV cs = []) :
    cs = [] ∨ ∃ r, matchV cs = some r := by
  match cs with
  | [] => exact Or.inl rfl
  | c :: cs' =>
    rw [subV_cons] at h
    rcases hm : matchV (c :: cs') with _ | rest <;> rw [hm] at h
    · cases h
    · exact Or.inr ⟨rest, rfl⟩

theorem subVer_lastNW {s : List Char} (h : LastNW s) : LastNW (subVer s) := by
  have H : ∀ n (s : List Char), s.length ≤ n → LastNW s →
      LastNW (subVer s) := by
    intro n
    induction n with
    | zero =>
      intro s hs h
      have : s = [] := List.eq_nil_of_length_eq_zero (Nat.le_zero.1 hs)
      subst this
      exact h
    | succ n ih =>
      intro s hs h
      match s with
      | [] => exact h
      | c :: cs =>
        rw [subVer_cons]
        rcases hm : matchVer (c :: cs) with _ | rest
        · show LastNW (c :: subVer cs)
          simp only [List.length_cons] at hs
          rcases hcs : subVer cs with _ | ⟨a, l⟩
          · rcases subVer_eq_nil hcs with rfl | ⟨r, hr⟩
            · exact h
            · have hcw : ¬ isSpacePy c := by
                intro hw
                have hd := matchVer_some_DReady hr
                have : DReady cs := hd
                exact (matchVer_cons_ws_iff hw cs).1 hm this
              intro d hd
              cases hd
              exact hcw
          · have hne : subVer cs ≠ [] := by rw [hcs]; simp
            have hcsne : cs ≠ [] := by
              intro hx
              subst hx
              exact hne rfl
            rw [← hcs]
            intro d hd
            rw [getLast?_cons_ne_nil hne] at hd
            refine ih cs (by omega) ?_ d hd
            intro e he
            refine h e ?_
            rw [getLast?_cons_ne_nil hcsne]
            exact he
        · have hl := matchVer_rest_length hm
          simp only [List.length_cons] at hl hs
          exact ih rest (by omega)
            (lastNW_of_suffix (matchVer_rest_suffix hm) h)
  exact H s.length s le_rfl h

theorem subV_lastNW {s : List Char} (h : LastNW s) : LastNW (subV s) := by
  have H : ∀ n (s : List Char), s.length ≤ n → LastNW s →
      LastNW (subV s) := by
    intro n
    induction n with
    | zero =>
      intro s hs h
      have : s = [] := List.eq_nil_of_length_eq_zero (Nat.le_zero.1 hs)
      subst this
      exact h
    | succ n ih =>
      intro s hs h
      match s with
      | [] => exact h
      | c :: cs =>
        rw [subV_cons]
        rcases hm : matchV (c :: cs) with _ | rest
        · show LastNW (c :: subV cs)
          simp only [List.length_cons] at hs
          rcases hcs : subV cs with _ | ⟨a, l⟩
          · rcases subV_eq_nil hcs with rfl | ⟨r, hr⟩
            · exact h
            · have hcw : ¬ isSpacePy c := by
                intro hw
                have hd := matchV_some_VReady hr
                exact (matchV_cons_ws_iff hw cs).1 hm hd
              intro d hd
              cases hd
              exact hcw
          · have hne : subV cs ≠ [] := by rw [hcs]; simp
            have hcsne : cs ≠ [] := by
              intro hx
              subst hx
              exact hne rfl
            rw [← hcs]
            intro d hd
            rw [getLast?_cons_ne_nil hne] at hd
            refine ih cs (by omega) ?_ d hd
            intro e he
            refine h e ?_
            rw [getLast?_cons_ne_nil hcsne]
            exact he
        · have hl := matchV_rest_length hm
          simp only [List.length_cons] at hl hs
          exact ih rest (by omega)
            (lastNW_of_suffix (matchV_rest_suffix hm) h)
  exact H s.length s le_rfl h

theorem applyAlias_spec (s : List Char) :
    (applyAlias s = s) ∨ ∃ p ∈ aliasPairs, applyAlias s = p.2 := by
  rcases hf : aliasPairs.find? (fun p => decide (p.1 = s)) with _ | p
  · left
    unfold applyAlias
    rw [hf]
  · right
    refine ⟨p, List.mem_of_find?_eq_some hf, ?_⟩
    unfold applyAlias
    rw [hf]

theorem aliasValues_norm : ∀ p ∈ aliasPairs,
    pyLower p.2 = p.2 ∧ pyStrip p.2 = p.2 ∧ subVer p.2 = p.2 ∧
      subV p.2 = p.2 ∧ applyAlias p.2 = p.2 := by
  decide

end Subconscious

namespace Subconscious

/-- **C8, amended.** Canonicalization is idempotent for PERSON, LOCATION,
CONCEPT, EVENT and (unconditionally) for TECH names; for ORG names it is
idempotent provided stripping the trailing corporate suffix does not
expose *another* trailing corporate suffix (exactly the situation of the
counterexample `"x inc inc"`). -/
theorem normalize_idempotent_amended (name : List Char) (ty : EntityType)
    (horg : ty = .ORG → hasOrgMatch (normalizeEntityName name .ORG) = false) :
    normalizeEntityName (normalizeEntityName name ty) ty =
      normalizeEntityName name ty := by
  have hs0l : LoweredL (pyStrip (pyLower name)) :=
    fun c hc => loweredL_pyLower name c (mem_pyStrip hc)
  have hs0h : HeadNW (pyStrip (pyLower name)) := headNW_pyStrip _
  have hs0last : LastNW (pyStrip (pyLower name)) := lastNW_pyStrip _
  cases ty with
  | TECH =>
    have hzl : LoweredL (subV (subVer (pyStrip (pyLower name)))) :=
      fun c hc => hs0l c (mem_subVer (mem_subV hc))
    have hzh : HeadNW (subV (subVer (pyStrip (pyLower name)))) :=
      subV_headNW (subVer_headNW hs0h)
    have hzlast : LastNW (subV (subVer (pyStrip (pyLower name)))) :=
      subV_lastNW (subVer_lastNW hs0last)
    have hzver : subVer (subV (subVer (pyStrip (pyLower name)))) =
        subV (subVer (pyStrip (pyLower name))) :=
      subVer_subV_of_eq (subVer_idem _)
    have hzv : subV (subV (subVer (pyStrip (pyLower name)))) =
        subV (subVer (pyStrip (pyLower name))) := subV_idem _
    show normalizeEntityName
        (applyAlias (subV (subVer (pyStrip (pyLower name))))) .TECH =
      applyAlias (subV (subVer (pyStrip (pyLower name))))
    rcases applyAlias_spec (subV (subVer (pyStrip (pyLower name)))) with
      hid | ⟨p, hp, hval⟩
    · rw [hid]
      show applyAlias (subV (subVer (pyStrip (pyLower
          (subV (subVer (pyStrip (pyLower name)))))))) = _
      rw [pyLower_eq_self hzl, pyStrip_eq_self hzh hzlast, hzver, hzv, hid]
    · rw [hval]
      obtain ⟨h1, h2, h3, h4, h5⟩ := aliasValues_norm p hp
      show applyAlias (subV (subVer (pyStrip (pyLower p.2)))) = p.2
      rw [h1, h2, h3, h4, h5]
  | ORG =>
    have hy : hasOrgMatch (subOrg (pyStrip (pyLower name))) = false :=
      horg rfl
    have hyl : LoweredL (subOrg (pyStrip (pyLower name))) :=
      fun c hc => hs0l c (mem_subOrg hc)
    have hyh : HeadNW (subOrg (pyStrip (pyLower name))) :=
      subOrg_headNW hs0h
    have hylast : LastNW (subOrg (pyStrip (pyLower name))) :=
      subOrg_lastNW hs0last
    show subOrg (pyStrip (pyLower (subOrg (pyStrip (pyLower name))))) = _
    rw [pyLower_eq_self hyl, pyStrip_eq_self hyh hylast]
    exact subOrg_eq_self hy
  | PERSON =>
    show pyStrip (pyLower (pyStrip (pyLower name))) = _
    rw [pyLower_eq_self hs0l, pyStrip_eq_self hs0h hs0last]
    rfl
  | LOCATION =>
    show pyStrip (pyLower (pyStrip (pyLower name))) = _
    rw [pyLower_eq_self hs0l, pyStrip_eq_self hs0h hs0last]
    rfl
  | CONCEPT =>
    show pyStrip (pyLower (pyStrip (pyLower name))) = _
    rw [pyLower_eq_self hs0l, pyStrip_eq_self hs0h hs0last]
    rfl
  | EVENT =>
    show pyStrip (pyLower (pyStrip (pyLower name))) = _
    rw [pyLower_eq_self hs0l, pyStrip_eq_self hs0h hs0last]
    rfl

end Subconscious

namespace Subconscious

/-! ## `SemanticTextSplitter` (text_processor.py)

`str.split(sep)` is modelled with an explicit first-occurrence scan
(fuel-indexed); the recursive splitter recurses structurally on the
remaining separator list, exactly mirroring `separator_index + 1`. -/

/-- Index of the first occurrence of `sep` in `xs` (`str.find`). -/
def findOcc (sep : List Char) : List Char → Option Nat
  | [] => if sep = [] then some 0 else none
  | c :: cs =>
      if sep.isPrefixOf (c :: cs) then some 0
      else (findOcc sep cs).map (· + 1)

/-- `text.split(sep)` for non-empty `sep` (fuel-indexed scan). -/
def splitOnSepF : Nat → List Char → List Char → List (List Char)
  | 0, _, xs => [xs]
  | fuel + 1, sep, xs =>
      match findOcc sep xs with
      | none => [xs]
      | some i => xs.take i :: splitOnSepF fuel sep (xs.drop (i + sep.length))

/-- `text.split(sep)`. -/
def splitOnSep (sep xs : List Char) : List (List Char) :=
  splitOnSepF xs.length sep xs

/-- `part + (separator if i < len(parts) - 1 else "")`. -/
def withSeps (sep : List Char) : List (List Char) → List (List Char)
  | [] => []
  | [p] => [p]
  | p :: q :: rest => (p ++ sep) :: withSeps sep (q :: rest)

/-- The separator hierarchy of `SemanticTextSplitter.__init__`. -/
def separators : List (List Char) :=
  ["\n\n".toList, "\n".toList, ". ".toList, "! ".toList, "? ".toList,
    "; ".toList, ": ".toList, ", ".toList, " ".toList]

/-- The merge-loop state of `_recursive_split` (`chunks`, `current_chunk`,
`current_size`). -/
structure MergeSt where
  chunks : List (List Char)
  current : List (List Char)
  currentSize : Nat

/-- `if current_chunk: ...` — join the pending parts and append the chunk,
recursively re-splitting it when it exceeds `max_size`. -/
def saveChunk (recSplit : List Char → List (List Char)) (maxSize : Nat)
    (st : MergeSt) : List (List Char) :=
  if st.current ≠ [] then
    if maxSize < st.current.flatten.length then
      st.chunks ++ recSplit st.current.flatten
    else st.chunks ++ [st.current.flatten]
  else st.chunks

/-- One iteration of the merge loop of `_recursive_split`. -/
def mergeStep (recSplit : List Char → List (List Char))
    (maxSize overlap : Nat) (st : MergeSt) (pws : List Char) : MergeSt :=
  if st.currentSize + pws.length ≤ maxSize then
    { st with
      current := st.current ++ [pws]
      currentSize := st.currentSize + pws.length }
  else
    let chunks1 := saveChunk recSplit maxSize st
    if chunks1 ≠ [] ∧ 0 < overlap then
      let lastChunk := chunks1.getLastD []
      let ov := lastChunk.drop (lastChunk.length - overlap)
      { chunks := chunks1, current := [ov, pws],
        currentSize := ov.length + pws.length }
    else
      { chunks := chunks1, current := [pws], currentSize := pws.length }

/-- The merge loop plus the trailing `if current_chunk:` save. -/
def mergeParts (recSplit : List Char → List (List Char))
    (maxSize overlap : Nat) (pwss : List (List Char)) : List (List Char) :=
  saveChunk recSplit maxSize
    (pwss.foldl (mergeStep recSplit maxSize overlap) ⟨[], [], 0⟩)

/-- `_force_split`: slices `text[i : i + max_size]` for
`i = 0, step, 2·step, …` keeping non-empty slices (fuel-indexed). -/
def forceSplitF : Nat → Nat → Nat → List Char → List (List Char)
  | 0, _, _, _ => []
  | fuel + 1, step, maxSize, text =>
      if text = [] then []
      else
        if text.take maxSize = [] then forceSplitF fuel step maxSize (text.drop step)
        else text.take maxSize :: forceSplitF fuel step maxSize (text.drop step)

/-- `_force_split` with `step = max_size - overlap` (a non-positive step is
a `ValueError` in Python; the model returns `[]`, unreachable under the
theorems' `overlap < max_size` hypothesis). -/
def forceSplit (maxSize overlap : Nat) (text : List Char) :
    List (List Char) :=
  if maxSize - overlap = 0 then []
  else forceSplitF text.length (maxSize - overlap) maxSize text

/-- `SemanticTextSplitter._recursive_split`. -/
def recursiveSplit : List (List Char) → Nat → Nat → List Char →
    List (List Char)
  | seps, maxSize, overlap, text =>
    if text.length ≤ maxSize then (if text = [] then [] else [text])
    else
      match seps with
      | [] => forceSplit maxSize overlap text
      | sep :: rest =>
          let parts := splitOnSep sep text
          if parts.length = 1 then recursiveSplit rest maxSize overlap text
          else
            mergeParts (fun t => recursiveSplit rest maxSize overlap t)
              maxSize overlap (withSeps sep parts)

/-- `text.find(sub, start)` (as an `Option` instead of `-1`). -/
def findSub (hay needle : List Char) (start : Nat) : Option Nat :=
  (findOcc needle (hay.drop start)).map (· + start)

/-- `_detect_chunk_type`. -/
def detectChunkType (t : List Char) : PyChunkType :=
  let stripped := pyStrip t
  let hashes := stripped.takeWhile (fun c => c = '#')
  if 1 ≤ hashes.length ∧ hashes.length ≤ 6 ∧
      (∃ c, (stripped.drop hashes.length).head? = some c ∧ isSpacePy c) then
    .heading
  else if "\x60\x60\x60".toList.isPrefixOf stripped ∨
      "    ".toList.isPrefixOf stripped then
    .code
  else if '\n' ∉ stripped ∧ stripped.length < 200 then .sentence
  else .paragraph

end Subconscious

namespace Subconscious

/-- The chunk-building loop of `SemanticTextSplitter.split`: positions are
found with `text.find` (from the previous position for `i > 0`), falling
back to the cumulative length of the preceding chunk texts when the search
fails; `char_end = char_position + len(chunk_text)` by construction. -/
def buildChunksF (orig : List Char) (mid : Option String)
    (all : List (List Char)) : Nat → Nat → List (List Char) → List Chunk
  | _, _, [] => []
  | i, pos, ct :: rest =>
      let p :=
        match (if i = 0 then findSub orig ct 0 else findSub orig ct pos) with
        | some p => p
        | none => ((all.take i).map List.length).sum
      { id := ""
        content := ct
        position := i
        char_start := p
        char_end := p + ct.length
        chunk_type := detectChunkType ct
        message_id := mid } :: buildChunksF orig mid all (i + 1) (p + ct.length) rest

/-- `SemanticTextSplitter.split` (without the async wrapper): empty or
whitespace-only text yields `[]`; otherwise recursively split the stripped
text and attach positions/types. -/
def splitText (maxSize overlap : Nat) (text : List Char)
    (mid : Option String) : List Chunk :=
  if pyStrip text = [] then []
  else
    let chunksText := recursiveSplit separators maxSize overlap (pyStrip text)
    buildChunksF text mid chunksText 0 0 chunksText

theorem buildChunksF_spec (orig : List Char) (mid : Option String)
    (all : List (List Char)) :
    ∀ (l : List (List Char)) (i pos : Nat),
      ∀ ch ∈ buildChunksF orig mid all i pos l,
        ch.char_end = ch.char_start + ch.content.length ∧ ch.content ∈ l := by
  intro l
  induction l with
  | nil =>
    intro i pos ch hch
    cases hch
  | cons ct rest ih =>
    intro i pos ch hch
    rw [buildChunksF] at hch
    rcases List.mem_cons.1 hch with rfl | hch
    · exact ⟨rfl, List.mem_cons_self _ _⟩
    · obtain ⟨h1, h2⟩ := ih _ _ ch hch
      exact ⟨h1, List.mem_cons_of_mem _ h2⟩

end Subconscious

namespace Subconscious

/-- Invariant of the merge loop after the first part has been absorbed:
saved chunks are non-empty, and the pending chunk is non-empty with
non-empty joined text. -/
def MergeInv (st : MergeSt) : Prop :=
  (∀ c ∈ st.chunks, c ≠ []) ∧ st.current ≠ [] ∧ st.current.flatten ≠ []

theorem getLastD_mem {l : List (List Char)} (h : l ≠ []) :
    l.getLastD [] ∈ l := by
  induction l with
  | nil => exact absurd rfl h
  | cons a r ih =>
    match r with
    | [] => exact List.mem_cons_self _ _
    | b :: r' =>
      have : (a :: b :: r').getLastD [] = (b :: r').getLastD [] := by
        simp [List.getLastD]
      rw [this]
      exact List.mem_cons_of_mem _ (ih (by simp))

theorem saveChunk_props {recSplit : List Char → List (List Char)}
    {maxSize : Nat}
    (hrec : ∀ t, t ≠ [] → recSplit t ≠ [] ∧ ∀ c ∈ recSplit t, c ≠ [])
    {st : MergeSt} (hst : MergeInv st) :
    saveChunk recSplit maxSize st ≠ [] ∧
      ∀ c ∈ saveChunk recSplit maxSize st, c ≠ [] := by
  obtain ⟨hchunks, hcur, hflat⟩ := hst
  unfold saveChunk
  rw [if_pos hcur]
  by_cases hlen : maxSize < st.current.flatten.length
  · rw [if_pos hlen]
    obtain ⟨hne, hels⟩ := hrec _ hflat
    constructor
    · intro h0
      rw [List.append_eq_nil] at h0
      exact hne h0.2
    · intro c hc
      rcases List.mem_append.1 hc with hc | hc
      · exact hchunks c hc
      · exact hels c hc
  · rw [if_neg hlen]
    constructor
    · intro h0
      rw [List.append_eq_nil] at h0
      cases h0.2
    · intro c hc
      rcases List.mem_append.1 hc with hc | hc
      · exact hchunks c hc
      · rw [List.mem_singleton] at hc
        subst hc
        exact hflat

theorem mergeStep_inv {recSplit : List Char → List (List Char)}
    {maxSize overlap : Nat} (hov : 0 < overlap)
    (hrec : ∀ t, t ≠ [] → recSplit t ≠ [] ∧ ∀ c ∈ recSplit t, c ≠ [])
    {st : MergeSt} (hst : MergeInv st) (pws : List Char) :
    MergeInv (mergeStep recSplit maxSize overlap st pws) := by
  obtain ⟨hchunks, hcur, hflat⟩ := hst
  unfold mergeStep
  by_cases hfit : st.currentSize + pws.length ≤ maxSize
  · rw [if_pos hfit]
    refine ⟨hchunks, by simp, ?_⟩
    rw [List.flatten_append]
    intro h0
    rw [List.append_eq_nil] at h0
    exact hflat h0.1
  · rw [if_neg hfit]
    obtain ⟨hsne, hsels⟩ := saveChunk_props hrec ⟨hchunks, hcur, hflat⟩
    rw [if_pos ⟨hsne, hov⟩]
    refine ⟨hsels, by simp, ?_⟩
    have hlast : (saveChunk recSplit maxSize st).getLastD [] ≠ [] :=
      hsels _ (getLastD_mem hsne)
    have hov' : ((saveChunk recSplit maxSize st).getLastD []).drop
        (((saveChunk recSplit maxSize st).getLastD []).length - overlap) ≠ [] := by
      intro h0
      have := congrArg List.length h0
      rw [List.length_drop] at this
      have hlp : 0 < ((saveChunk recSplit maxSize st).getLastD []).length :=
        List.length_pos.2 hlast
      simp only [List.length_nil] at this
      omega
    simp only [List.flatten_cons]
    intro h0
    rw [List.append_eq_nil, List.append_eq_nil] at h0
    exact hov' h0.1

theorem mergeStep_init {recSplit : List Char → List (List Char)}
    {maxSize overlap : Nat} {pws : List Char} (hp : pws ≠ []) :
    MergeInv (mergeStep recSplit maxSize overlap ⟨[], [], 0⟩ pws) := by
  unfold mergeStep
  by_cases hfit : (0 : Nat) + pws.length ≤ maxSize
  · rw [if_pos hfit]
    refine ⟨by simp, by simp, ?_⟩
    simpa using hp
  · rw [if_neg hfit]
    have hsave : saveChunk recSplit maxSize ⟨[], [], 0⟩ = [] := by
      unfold saveChunk
      rw [if_neg (by simp)]
    rw [hsave]
    rw [if_neg (by simp)]
    refine ⟨by simp, by simp, ?_⟩
    simpa using hp

theorem mergeFold_inv {recSplit : List Char → List (List Char)}
    {maxSize overlap : Nat} (hov : 0 < overlap)
    (hrec : ∀ t, t ≠ [] → recSplit t ≠ [] ∧ ∀ c ∈ recSplit t, c ≠ [])
    (pwss : List (List Char)) :
    ∀ st : MergeSt, MergeInv st →
      MergeInv (pwss.foldl (mergeStep recSplit maxSize overlap) st) := by
  induction pwss with
  | nil => exact fun st h => h
  | cons p ps ih =>
    intro st hst
    exact ih _ (mergeStep_inv hov hrec hst p)

theorem mergeParts_props {recSplit : List Char → List (List Char)}
    {maxSize overlap : Nat} (hov : 0 < overlap)
    (hrec : ∀ t, t ≠ [] → recSplit t ≠ [] ∧ ∀ c ∈ recSplit t, c ≠ [])
    {p : List Char} (hp : p ≠ []) (ps : List (List Char)) :
    mergeParts recSplit maxSize overlap (p :: ps) ≠ [] ∧
      ∀ c ∈ mergeParts recSplit maxSize overlap (p :: ps), c ≠ [] := by
  unfold mergeParts
  rw [List.foldl_cons]
  exact saveChunk_props hrec
    (mergeFold_inv hov hrec ps _ (mergeStep_init hp))

theorem forceSplitF_mem {c : List Char} :
    ∀ (fuel step maxSize : Nat) (t : List Char),
      c ∈ forceSplitF fuel step maxSize t → c ≠ [] := by
  intro fuel
  induction fuel with
  | zero =>
    intro step maxSize t h
    cases h
  | succ fuel ih =>
    intro step maxSize t h
    rw [forceSplitF.eq_def] at h
    have h' : c ∈ (if t = [] then []
        else
          if t.take maxSize = [] then
            forceSplitF fuel step maxSize (t.drop step)
          else
            t.take maxSize :: forceSplitF fuel step maxSize (t.drop step)) :=
      h
    by_cases ht : t = []
    · rw [if_pos ht] at h'
      cases h'
    · rw [if_neg ht] at h'
      by_cases htake : t.take maxSize = []
      · rw [if_pos htake] at h'
        exact ih _ _ _ h'
      · rw [if_neg htake] at h'
        rcases List.mem_cons.1 h' with rfl | h'
        · exact htake
        · exact ih _ _ _ h' 

theorem forceSplit_props {maxSize overlap : Nat} (hov : 0 < overlap)
    (hlt : overlap < maxSize) {t : List Char} (ht : t ≠ []) :
    forceSplit maxSize overlap t ≠ [] ∧
      ∀ c ∈ forceSplit maxSize overlap t, c ≠ [] := by
  unfold forceSplit
  rw [if_neg (by omega)]
  constructor
  · rcases t with _ | ⟨a, l⟩
    · exact absurd rfl ht
    · have heq : forceSplitF (a :: l).length (maxSize - overlap) maxSize
          (a :: l) =
          if (a :: l) = [] then []
          else
            if (a :: l).take maxSize = [] then
              forceSplitF l.length (maxSize - overlap) maxSize
                ((a :: l).drop (maxSize - overlap))
            else
              (a :: l).take maxSize ::
                forceSplitF l.length (maxSize - overlap) maxSize
                  ((a :: l).drop (maxSize - overlap)) := rfl
      rw [heq, if_neg (by simp)]
      rw [if_neg (by
        intro h0
        have := congrArg List.length h0
        rw [List.length_take] at this
        simp only [List.length_nil, List.length_cons] at this
        omega)]
      simp
  · intro c hc
    exact forceSplitF_mem _ _ _ _ hc

theorem splitOnSepF_ne_nil (fuel : Nat) (sep xs : List Char) :
    splitOnSepF fuel sep xs ≠ [] := by
  match fuel with
  | 0 => simp [splitOnSepF]
  | fuel + 1 =>
    rw [splitOnSepF]
    rcases h : findOcc sep xs with _ | i <;> simp

theorem withSeps_head {sep p q : List Char} {rest : List (List Char)}
    (hsep : sep ≠ []) :
    withSeps sep (p :: q :: rest) = (p ++ sep) :: withSeps sep (q :: rest) ∧
      p ++ sep ≠ [] := by
  refine ⟨rfl, ?_⟩
  intro h0
  rw [List.append_eq_nil] at h0
  exact hsep h0.2

end Subconscious

namespace Subconscious

theorem recursiveSplit_nil_eq (maxSize overlap : Nat) (t : List Char) :
    recursiveSplit [] maxSize overlap t =
      if t.length ≤ maxSize then (if t = [] then [] else [t])
      else forceSplit maxSize overlap t := rfl

theorem recursiveSplit_cons_eq (sep : List Char) (rest : List (List Char))
    (maxSize overlap : Nat) (t : List Char) :
    recursiveSplit (sep :: rest) maxSize overlap t =
      if t.length ≤ maxSize then (if t = [] then [] else [t])
      else
        if (splitOnSep sep t).length = 1 then
          recursiveSplit rest maxSize overlap t
        else
          mergeParts (fun u => recursiveSplit rest maxSize overlap u)
            maxSize overlap (withSeps sep (splitOnSep sep t)) := rfl

theorem recursiveSplit_good :
    ∀ seps : List (List Char), (∀ s ∈ seps, s ≠ []) →
    ∀ maxSize overlap : Nat, 0 < overlap → overlap < maxSize →
    ∀ t : List Char, t ≠ [] →
      recursiveSplit seps maxSize overlap t ≠ [] ∧
      ∀ c ∈ recursiveSplit seps maxSize overlap t, c ≠ [] := by
  intro seps
  induction seps with
  | nil =>
    intro _ maxSize overlap hov hlt t ht
    rw [recursiveSplit_nil_eq]
    by_cases hle : t.length ≤ maxSize
    · rw [if_pos hle, if_neg ht]
      refine ⟨by simp, ?_⟩
      intro c hc
      rw [List.mem_singleton] at hc
      subst hc
      exact ht
    · rw [if_neg hle]
      exact forceSplit_props hov hlt ht
  | cons sep rest ih =>
    intro hseps maxSize overlap hov hlt t ht
    have hsep : sep ≠ [] := hseps sep (List.mem_cons_self _ _)
    have hrest : ∀ s ∈ rest, s ≠ [] :=
      fun s hs => hseps s (List.mem_cons_of_mem _ hs)
    rw [recursiveSplit_cons_eq]
    by_cases hle : t.length ≤ maxSize
    · rw [if_pos hle, if_neg ht]
      refine ⟨by simp, ?_⟩
      intro c hc
      rw [List.mem_singleton] at hc
      subst hc
      exact ht
    · rw [if_neg hle]
      by_cases hone : (splitOnSep sep t).length = 1
      · rw [if_pos hone]
        exact ih hrest maxSize overlap hov hlt t ht
      · rw [if_neg hone]
        have hnn := splitOnSepF_ne_nil t.length sep t
        rcases hparts : splitOnSep sep t with _ | ⟨p, _ | ⟨q, rest'⟩⟩
        · exact absurd hparts hnn
        · rw [hparts] at hone
          simp at hone
        · have hw := @withSeps_head sep p q rest' hsep
          rw [hw.1]
          exact mergeParts_props hov
            (fun u hu => ih hrest maxSize overlap hov hlt u hu) hw.2 _

/-- **C10.** Every chunk produced by `split` satisfies
`char_end = char_start + len(content)` exactly — the fallback path
included, since the equation holds by construction for any found or
computed position — and, for a splitter with `0 < overlap < max_size`
(the defaults are `800`/`120`), every produced chunk has non-empty
content, hence `char_start < char_end`. -/
theorem split_char_bounds (maxSize overlap : Nat) (text : List Char)
    (mid : Option String) :
    (∀ ch ∈ splitText maxSize overlap text mid,
      ch.char_end = ch.char_start + ch.content.length) ∧
    (0 < overlap → overlap < maxSize →
      ∀ ch ∈ splitText maxSize overlap text mid,
        ch.content ≠ [] ∧ ch.char_start < ch.char_end) := by
  constructor
  · intro ch hch
    unfold splitText at hch
    by_cases hs : pyStrip text = []
    · rw [if_pos hs] at hch
      cases hch
    · rw [if_neg hs] at hch
      exact (buildChunksF_spec text mid _ _ _ _ ch hch).1
  · intro hov hlt ch hch
    unfold splitText at hch
    by_cases hs : pyStrip text = []
    · rw [if_pos hs] at hch
      cases hch
    · rw [if_neg hs] at hch
      obtain ⟨heq, hmem⟩ := buildChunksF_spec text mid _ _ _ _ ch hch
      have hsepsne : ∀ s ∈ separators, s ≠ [] := by decide
      have hgood := recursiveSplit_good separators hsepsne maxSize overlap
        hov hlt (pyStrip text) hs
      have hcne : ch.content ≠ [] := hgood.2 _ hmem
      refine ⟨hcne, ?_⟩
      rw [heq]
      have : 0 < ch.content.length := List.length_pos.2 hcne
      omega

end Subconscious

namespace Subconscious

/-! ### C1 — `subconscious_analyze_node` graceful degradation

`nodes.py`: the whole pipeline body runs inside one `try`; the `except`
branch sets `analyzed = False`, `error = "Analysis failed: " + str(e)` and
`context = ContextAnalysis().model_dump()`.  `ContextAnalysis`
(`schemas.py`) defaults every list field to `[]`, `conversation_continuity`
to `0.0` and `confidence` to `0.0`.  The pipeline steps (chunking,
embeddings, extraction, search, formatting, persistence) are outward
calls; they are modelled by one oracle returning `Except String
ContextAnalysis`, fed the validated `message_id` and `message_content`. -/

/-- `ContextAnalysis` (`schemas.py`), with pydantic's field defaults. -/
structure ContextAnalysis where
  recent_messages : List MsgEntry := []
  similar_chunks : List SimilarChunk := []
  similar_messages : List MsgEntry := []
  mentioned_entities : List String := []
  related_entities : List String := []
  topics : List String := []
  is_new_topic : Bool := false
  conversation_continuity : ℚ := 0
  time_span_days : ℤ := 0
  total_chunks_analyzed : Nat := 0
  total_entities_extracted : Nat := 0
  processing_time_ms : ℚ := 0
  confidence : ℚ := 0
  deriving DecidableEq, Repr, Inhabited

/-- What `state["context"]` holds: never assigned, the literal `{}` of the
not-recorded branch, or a dumped `ContextAnalysis`. -/
inductive StateContext where
  | unset
  | emptyDict
  | analysis (c : ContextAnalysis)
  deriving DecidableEq, Repr, Inhabited

/-- The slice of the LangGraph `state` dict the node reads and writes. -/
structure AnalyzeState where
  recorded : Bool := false
  message_id : Option String := none
  message_content : Option (List Char) := none
  analyzed : Bool := false
  error : Option String := none
  context : StateContext := .unset
  deriving DecidableEq, Repr, Inhabited

/-- The body of the `try` block: the two explicit `ValueError`s of the
input validation (a falsy `message_id` or `message_content` raises), then
the pipeline steps as one oracle. -/
def runAnalyze (pipeline : String → List Char → Except String ContextAnalysis)
    (st : AnalyzeState) : Except String ContextAnalysis :=
  match st.message_id with
  | none => .error "message_id not found in state"
  | some m =>
      if m = "" then .error "message_id not found in state"
      else
        match st.message_content with
        | none => .error "message_content not found in state"
        | some c =>
            if c = [] then .error "message_content not found in state"
            else pipeline m c

/-- `subconscious_analyze_node` (`nodes.py`): the not-recorded early
return, then the `try`/`except` with its graceful-degradation branch. -/
def analyzeNode (pipeline : String → List Char → Except String ContextAnalysis)
    (st : AnalyzeState) : AnalyzeState :=
  if st.recorded = false then
    { st with analyzed := false, context := .emptyDict }
  else
    match runAnalyze pipeline st with
    | .ok ctx =>
        { st with context := .analysis ctx, analyzed := true, error := none }
    | .error e =>
        { st with analyzed := false,
                  error := some ("Analysis failed: " ++ e),
                  context := .analysis {} }

/-- A recorded state with valid `message_id` and `message_content`. -/
def cexAnalyzeState : AnalyzeState :=
  { recorded := true, message_id := some "m1",
    message_content := some ['h', 'i'] }

/-- **C1, counterexample.**  A failing pipeline step is caught and the
node still returns a state carrying a default `ContextAnalysis` — but its
`confidence` is exactly `0.0`, the schema default, not "near the neutral
0.5": `¬ (1/4 ≤ confidence)`, so no reading of "near 0.5" holds. -/
theorem analyze_node_confidence_cex :
    (analyzeNode (fun _ _ => .error "boom") cexAnalyzeState).context =
        .analysis {} ∧
    ({} : ContextAnalysis).confidence = 0 ∧
    ¬ ((1 : ℚ) / 4 ≤ ({} : ContextAnalysis).confidence) := by
  refine ⟨rfl, rfl, ?_⟩
  show ¬ ((1 : ℚ) / 4 ≤ 0)
  rw [not_le]
  norm_num

/-- **C1 (amended).**  When the message was recorded and any internal step
raises, the node swallows the exception and returns the input state with
`analyzed = False`, `error = "Analysis failed: " + str(e)` and `context` a
dumped default `ContextAnalysis` — which carries **no** similar-chunk,
similar-message or topic data and whose `confidence` is exactly `0.0`
(the schema default), not near `0.5`. -/
theorem analyze_node_degraded_amended
    (pipeline : String → List Char → Except String ContextAnalysis)
    (st : AnalyzeState) (e : String) (hrec : st.recorded = true)
    (herr : runAnalyze pipeline st = .error e) :
    analyzeNode pipeline st =
      { st with analyzed := false,
                error := some ("Analysis failed: " ++ e),
                context := .analysis {} } ∧
    ({} : ContextAnalysis).similar_chunks = [] ∧
    ({} : ContextAnalysis).similar_messages = [] ∧
    ({} : ContextAnalysis).topics = [] ∧
    ({} : ContextAnalysis).conversation_continuity = 0 ∧
    ({} : ContextAnalysis).confidence = 0 := by
  refine ⟨?_, rfl, rfl, rfl, rfl, rfl⟩
  unfold analyzeNode
  rw [if_neg (by rw [hrec]; exact fun h => Bool.noConfusion h), herr]

/-- **C1, witness.**  The degradation equation at a concrete failing
pipeline and a concrete recorded state. -/
theorem analyze_node_degraded_witness :
    analyzeNode (fun _ _ => .error "boom") cexAnalyzeState =
      { cexAnalyzeState with
          analyzed := false,
          error := some ("Analysis failed: " ++ "boom"),
          context := .analysis {} } ∧
    ({} : ContextAnalysis).similar_chunks = [] ∧
    ({} : ContextAnalysis).similar_messages = [] ∧
    ({} : ContextAnalysis).topics = [] ∧
    ({} : ContextAnalysis).conversation_continuity = 0 ∧
    ({} : ContextAnalysis).confidence = 0 :=
  analyze_node_degraded_amended (fun _ _ => .error "boom") cexAnalyzeState
    "boom" rfl rfl

end Subconscious

namespace Subconscious

/-- A one-message store for the C3 witness: every id maps to one chunk of
message `m1`. -/
def witRepo : String → List Chunk :=
  fun _ => [{ id := "c1", content := ['h', 'i'], created_at := 7,
              message_id := some "m1" }]

/-- One similar chunk whose parent message is `m1` (C3 witness data). -/
def witSimChunks : List SimilarChunk :=
  [⟨{ id := "q1", message_id := some "m1" }, 1⟩]

/-- **C3, witness.**  The amended message-reconstruction law at a concrete
repository, the identity set enumeration and one similar chunk. -/
theorem messages_for_chunks_witness :
    (getMessagesForChunks witRepo (fun l => l) witSimChunks).length ≤ 5 ∧
    ((getMessagesForChunks witRepo (fun l => l) witSimChunks).map
        (fun m => m.id)).Nodup ∧
    ∀ m ∈ getMessagesForChunks witRepo (fun l => l) witSimChunks,
      (∃ sc ∈ witSimChunks, sc.chunk.message_id = some m.id) ∧
      m.id ≠ "" ∧ witRepo m.id ≠ [] ∧
      m.content = truncate200 (joinSpace ((witRepo m.id).map Chunk.content)) ∧
      m.timestamp = ((witRepo m.id).headD default).created_at :=
  messages_for_chunks_amended witRepo (fun l => l) witSimChunks (by decide)

/-- **C8, witness.**  Idempotence of `normalize_entity_name` at the ORG
name `"Acme Inc"`: its normal form `"acme"` has no further corporate
suffix to strip, so the amended theorem's side condition holds by
evaluation. -/
theorem normalize_idempotent_witness :
    normalizeEntityName
        (normalizeEntityName ['A', 'c', 'm', 'e', ' ', 'I', 'n', 'c'] .ORG)
        .ORG =
      normalizeEntityName ['A', 'c', 'm', 'e', ' ', 'I', 'n', 'c'] .ORG :=
  normalize_idempotent_amended ['A', 'c', 'm', 'e', ' ', 'I', 'n', 'c'] .ORG
    (fun _ => by decide)

/-- A total embeddings API for the C9 witness: every text embeds to `[1]`,
so every batch succeeds with one vector per input. -/
def witApi : List (List Char) → Except String (List (List ℚ)) :=
  fun b => .ok (b.map (fun _ => [1]))

/-- Two chunks to embed (C9 witness data). -/
def witEmbChunks : List Chunk :=
  [{ id := "c1", content := ['a'] }, { id := "c2", content := ['b'] }]

/-- **C9, witness.**  The all-or-nothing law at a concrete succeeding API
(batch size 2, two chunks): the error component is `none` and every chunk
of the result carries an embedding. -/
theorem embed_chunks_witness :
    (∀ e, (embedChunks witApi 2 "m" 5 witEmbChunks).2 = some e →
        (embedChunks witApi 2 "m" 5 witEmbChunks).1 = witEmbChunks) ∧
    ((embedChunks witApi 2 "m" 5 witEmbChunks).2 = none →
      ∃ embs, generateBatch witApi 2 (witEmbChunks.map Chunk.content) =
          .ok embs ∧
        embs.length = witEmbChunks.length ∧
        (embedChunks witApi 2 "m" 5 witEmbChunks).1 =
          (witEmbChunks.zip embs).map
            (fun p =>
              { p.1 with
                embedding := some p.2
                embedding_model := "m"
                embedding_created_at := some (5 : ℤ) }) ∧
        (embedChunks witApi 2 "m" 5 witEmbChunks).1.length =
          witEmbChunks.length ∧
        ∀ c ∈ (embedChunks witApi 2 "m" 5 witEmbChunks).1,
          c.embedding.isSome) :=
  embed_chunks_all_or_nothing witApi 2 "m" 5 witEmbChunks (by decide)
    (fun b embs h => by
      injection h with h
      rw [← h, List.length_map])

end Subconscious
